import Mathlib

/-!
Shallow embedding of the `varfmt` analyzer (package `varfmt`, file
`varfmt/varfmt.go`, inspector-based implementation).

The analyzer consumes, from its host framework:
  * resolved symbol information (`go/types`): modelled by attaching the
    resolution result (`Option Obj`) directly to identifier and selector
    nodes, exactly where the Go code calls `pass.TypesInfo.ObjectOf` or
    reads `pass.TypesInfo.Selections`;
  * the printf classification (`printf.Result`): modelled by the
    `ObjKind.funcK` payload carrying the printf kind and the signature's
    parameter count, which is all `fmtarg` reads from it;
  * the AST traversal (`inspector.Preorder` with the filter
    `[CallExpr, FuncDecl, AssignStmt]`): modelled as the list of visited
    nodes, in preorder, as `List Event`;
  * the pretty printer (`go/printer` keyed by position): modelled as an
    injected rendering function `pp : Expr → String`.

Go panics (nil dereference in `selobj` when a selector has neither an
object nor a selection, `reflect.TypeOf(nil).String()` inside `pt` when
called with a nil object, and out-of-range indexing `n.Args[checkarg]`)
are modelled by returning `Except.error` of a `GoPanic` value; all other
code paths return `Except.ok`.

Source positions carried by diagnostics are presentation data handed to
the external sink, so `Diagnostic` keeps only the message and the texts
of the related-information notes, in the order they are produced.

Node identity: the Go culprit set `bad` is a `map[ast.Node]struct{}`
keyed by node pointer identity.  Distinct nodes of one expression tree
are exactly its distinct positions, so the embedding keys the set by the
node's path from the root of the evaluated expression (`Path`), pairing
it with the node itself for message synthesis.
-/

namespace VarFmt

/-- Reasons a run of the Go code would panic. -/
inductive GoPanic where
  | nilSelection
  | nilTypeOf
  | indexOOB
  deriving DecidableEq, Repr

/-- Classification of a function by the upstream printf analyzer
(`printf.Kind`). -/
inductive PrintfKind where
  | noneK
  | printK
  | printfK
  | errorfK
  deriving DecidableEq, Repr

/-- The declaration kind of a resolved object (`types.Object`): variable,
declared constant, function (with its printf classification and the
length of its signature's parameter tuple), type name, or any other
kind. -/
inductive ObjKind where
  | varK
  | constK
  | funcK (pk : PrintfKind) (paramsLen : Nat)
  | typeK
  | otherK
  deriving DecidableEq, Repr

/-- A resolved object.  `id` stands for the object's identity (pointer
identity of the `types.Object`). -/
structure Obj where
  id : Nat
  kind : ObjKind
  deriving DecidableEq, Repr

/-- A parameter name in a field list: the identifier text and its
resolution (`pass.TypesInfo.ObjectOf(id)`). -/
structure Id where
  name : String
  obj : Option Obj
  deriving DecidableEq, Repr

/-- One field of a function's parameter field list (`ast.Field`): its
(possibly empty) list of names.  Unnamed parameters contribute no
names. -/
structure Field where
  names : List Id
  deriving DecidableEq, Repr

/-- Expression AST (`ast.Expr`), restricted to the shapes the analyzer
distinguishes.  Identifiers and selectors carry their upstream symbol
resolution: for a selector, `selObj` is `ObjectOf(x.Sel)` and
`selection` is the object of the `types.Selections` entry for the node
(`none` when the map has no entry).  `other` stands for any further
syntactic shape, which the Go code only meets in its `default`
branches. -/
inductive Expr where
  | basicLit (value : String)
  | ident (name : String) (obj : Option Obj)
  | binary (x y : Expr)
  | keyValue (key value : Expr)
  | paren (x : Expr)
  | slice (x : Expr) (low high max : Option Expr)
  | star (x : Expr)
  | typeAssert (x : Expr)
  | unary (x : Expr)
  | selector (x : Expr) (sel : String) (selObj : Option Obj) (selection : Option Obj)
  | call (fn : Expr) (args : List Expr)
  | index (x k : Expr)
  | funcLit
  | arrayType
  | interfaceType
  | mapType
  | chanType
  | structType
  | other (kind : String)

/-- Identity of a node inside one evaluated expression tree: its path of
child slots from the root.  Distinct nodes have distinct paths, mirroring
pointer identity of `ast.Node` map keys. -/
abbrev Path := List Nat

/-- The culprit set `bad : map[ast.Node]struct{}`, keyed by node identity
(path), keeping the node for later rendering.  The list order is the
insertion order. -/
abbrev BadSet := List (Path × Expr)

/-- Membership test of a key in the culprit set. -/
def containsBad (bad : BadSet) (p : Path) : Bool :=
  bad.any (fun b => b.1 == p)

/-- `bad[x] = struct{}{}`: map insertion (no duplicate keys). -/
def insertBad (bad : BadSet) (p : Path) (x : Expr) : BadSet :=
  if containsBad bad p then bad else bad ++ [(p, x)]

/-- `delete(bad, x)`: map deletion by key. -/
def eraseBad (bad : BadSet) (p : Path) : BadSet :=
  bad.filter (fun b => !(b.1 == p))

/-- Mutable state threaded through `constlit`: the culprit set and the
developer-visible warnings printed by `pt` so far. -/
structure CState where
  bad : BadSet
  warns : List String

/-- `pt(label, x)`: prints the developer warning.  When `x` is a nil
interface, `reflect.TypeOf(x)` is nil and `.String()` on it panics; the
caller passes `argIsNil` accordingly. -/
def pt (label : String) (argIsNil : Bool) : Except GoPanic String :=
  if argIsNil then .error .nilTypeOf else .ok label

/-- `selobj(ti, x)`: `ObjectOf(x.Sel)` if non-nil, otherwise the object
of the `Selections` entry; if the entry is also missing, the Go code
dereferences a nil `*types.Selection` and panics. -/
def selobj (selObj selection : Option Obj) : Except GoPanic Obj :=
  match selObj with
  | some o => .ok o
  | none =>
    match selection with
    | some o => .ok o
    | none => .error .nilSelection

/-- `constobj(obj)`: the object is a declared constant (`*types.Const`);
false for a nil object. -/
def constobj (obj : Option Obj) : Bool :=
  match obj with
  | some o => o.kind == .constK
  | none => false

/-- `typeobj(obj)`: the object is a type name (`*types.TypeName`); false
for a nil object. -/
def typeobj (obj : Option Obj) : Bool :=
  match obj with
  | some o => o.kind == .typeK
  | none => false

/-- Verdict of `typeexpr(ti, x)`: for a selector the check moves to its
`Sel` identifier (whose resolution is `selObj`); for an identifier its
own resolution; anything else is not a type expression. -/
def typeexpr : Expr → Bool
  | .selector _ _ selObj _ => typeobj selObj
  | .ident _ obj => typeobj obj
  | _ => false

/-- Warning emitted by `typeexpr(ti, x)`: its `pt` call fires exactly
when the expression is neither a selector nor an identifier (`x` is a
non-nil node there, so `pt` cannot panic). -/
def typeexprWarn (pp : Expr → String) : Expr → List String
  | .selector _ _ _ _ => []
  | .ident _ _ => []
  | x => ["typeexpr " ++ pp x]

/-- `fmtarg(printers, obj)`: for a function classified `KindPrintf` or
`KindErrorf`, the format argument index `params.Len() - 2`; otherwise
`-1`. -/
def fmtarg (obj : Option Obj) : Int :=
  match obj with
  | some o =>
    match o.kind with
    | .funcK pk paramsLen =>
      match pk with
      | .printfK => (paramsLen : Int) - 2
      | .errorfK => (paramsLen : Int) - 2
      | _ => -1
    | _ => -1
  | none => -1

/-- Inner loop of `nthName`: walk one field's names with the running
counter `i`, returning the name at counter value `nth`, or the advanced
counter. -/
def nthNameNames (nth : Int) (i : Int) : List Id → Option Id × Int
  | [] => (none, i)
  | n :: rest => if i == nth then (some n, i) else nthNameNames nth (i + 1) rest

/-- Outer loop of `nthName` over the field list. -/
def nthNameFields (nth : Int) (i : Int) : List Field → Option Id
  | [] => none
  | fld :: rest =>
    match nthNameNames nth i fld.names with
    | (some n, _) => some n
    | (none, i') => nthNameFields nth i' rest

/-- `nthName(flds, nth)`: the `nth` declared parameter name, counting
names across all fields, or nil. -/
def nthName (flds : List Field) (nth : Int) : Option Id :=
  nthNameFields nth 0 flds

/-- Total number of declared parameter names in a field list. -/
def countNames (flds : List Field) : Nat :=
  (flds.map (fun f => f.names.length)).sum

/-- `combine(ti, parent, bad, xs...)`, after its operands have been
evaluated (the Go loop over `xs` calling `constlit` happens at the call
site in this embedding): computes `allgood`/`allbad` from the operand
verdicts, and when every operand is bad deletes the operands' own
entries and records the parent as culprit.  Returns `allgood`. -/
def combine (parentPath : Path) (parent : Expr) (results : List (Path × Bool))
    (s : CState) : Bool × CState :=
  let allgood := results.all (fun r => r.2)
  let allbad := results.all (fun r => !r.2)
  if allbad then
    (allgood,
      { s with bad := insertBad (results.foldl (fun b r => eraseBad b r.1) s.bad) parentPath parent })
  else (allgood, s)

mutual

/-- `constlit(ti, x, bad)`: constant-provenance verdict for `x`,
accumulating culprits (and `pt` warnings) in the threaded state.  Child
nodes are addressed by extending the path with a fixed slot per child
(binary/keyValue: 0,1; single-child forms: 0; slice: X=0, Low=1, High=2,
Max=3; conversion argument: 0). -/
def constlit (pp : Expr → String) (x : Expr) (path : Path) (s : CState) :
    Except GoPanic (Bool × CState) :=
  match x with
  | .binary a b =>
    match constlit pp a (path ++ [0]) s with
    | .error p => .error p
    | .ok (r0, s0) =>
      match constlit pp b (path ++ [1]) s0 with
      | .error p => .error p
      | .ok (r1, s1) =>
        .ok (combine path x [(path ++ [0], r0), (path ++ [1], r1)] s1)
  | .keyValue a b =>
    match constlit pp a (path ++ [0]) s with
    | .error p => .error p
    | .ok (r0, s0) =>
      match constlit pp b (path ++ [1]) s0 with
      | .error p => .error p
      | .ok (r1, s1) =>
        .ok (combine path x [(path ++ [0], r0), (path ++ [1], r1)] s1)
  | .paren a =>
    match constlit pp a (path ++ [0]) s with
    | .error p => .error p
    | .ok (r0, s0) => .ok (combine path x [(path ++ [0], r0)] s0)
  | .slice a lo hi mx =>
    match constlit pp a (path ++ [0]) s with
    | .error p => .error p
    | .ok (r0, s0) =>
      match constlitOpt pp lo (path ++ [1]) s0 with
      | .error p => .error p
      | .ok (rs1, s1) =>
        match constlitOpt pp hi (path ++ [2]) s1 with
        | .error p => .error p
        | .ok (rs2, s2) =>
          match constlitOpt pp mx (path ++ [3]) s2 with
          | .error p => .error p
          | .ok (rs3, s3) =>
            .ok (combine path x ((path ++ [0], r0) :: (rs1 ++ rs2 ++ rs3)) s3)
  | .star a =>
    match constlit pp a (path ++ [0]) s with
    | .error p => .error p
    | .ok (r0, s0) => .ok (combine path x [(path ++ [0], r0)] s0)
  | .typeAssert a =>
    match constlit pp a (path ++ [0]) s with
    | .error p => .error p
    | .ok (r0, s0) => .ok (combine path x [(path ++ [0], r0)] s0)
  | .unary a =>
    match constlit pp a (path ++ [0]) s with
    | .error p => .error p
    | .ok (r0, s0) => .ok (combine path x [(path ++ [0], r0)] s0)
  | .selector _ _ so sel =>
    match selobj so sel with
    | .error p => .error p
    | .ok o =>
      if constobj (some o) then .ok (true, s)
      else .ok (false, { s with bad := insertBad s.bad path x })
  | .basicLit _ => .ok (true, s)
  | .ident _ obj =>
    if constobj obj then .ok (true, s)
    else .ok (false, { s with bad := insertBad s.bad path x })
  | .call fn args =>
    match args with
    | [a] =>
      let s1 : CState := { s with warns := s.warns ++ typeexprWarn pp fn }
      if typeexpr fn then
        match constlit pp a (path ++ [0]) s1 with
        | .error p => .error p
        | .ok (true, s2) => .ok (true, s2)
        | .ok (false, s2) => .ok (false, { s2 with bad := insertBad s2.bad path x })
      else .ok (false, { s1 with bad := insertBad s1.bad path x })
    | _ => .ok (false, { s with bad := insertBad s.bad path x })
  | .index _ _ => .ok (false, { s with bad := insertBad s.bad path x })
  | .funcLit =>
    match pt ("unhandled constlit " ++ pp x) false with
    | .error p => .error p
    | .ok w => .ok (false, { bad := insertBad s.bad path x, warns := s.warns ++ [w] })
  | .arrayType =>
    match pt ("unhandled constlit " ++ pp x) false with
    | .error p => .error p
    | .ok w => .ok (false, { bad := insertBad s.bad path x, warns := s.warns ++ [w] })
  | .interfaceType =>
    match pt ("unhandled constlit " ++ pp x) false with
    | .error p => .error p
    | .ok w => .ok (false, { bad := insertBad s.bad path x, warns := s.warns ++ [w] })
  | .mapType =>
    match pt ("unhandled constlit " ++ pp x) false with
    | .error p => .error p
    | .ok w => .ok (false, { bad := insertBad s.bad path x, warns := s.warns ++ [w] })
  | .chanType =>
    match pt ("unhandled constlit " ++ pp x) false with
    | .error p => .error p
    | .ok w => .ok (false, { bad := insertBad s.bad path x, warns := s.warns ++ [w] })
  | .structType =>
    match pt ("unhandled constlit " ++ pp x) false with
    | .error p => .error p
    | .ok w => .ok (false, { bad := insertBad s.bad path x, warns := s.warns ++ [w] })
  | .other _ =>
    match pt ("unhandled constlit " ++ pp x) false with
    | .error p => .error p
    | .ok w => .ok (false, { bad := insertBad s.bad path x, warns := s.warns ++ [w] })
termination_by sizeOf x
decreasing_by all_goals (simp_wf <;> omega)

/-- Evaluation of one optional slice operand: absent operands contribute
nothing to the `combine` operand list. -/
def constlitOpt (pp : Expr → String) (o : Option Expr) (path : Path) (s : CState) :
    Except GoPanic (List (Path × Bool) × CState) :=
  match o with
  | none => .ok ([], s)
  | some e =>
    match constlit pp e path s with
    | .error p => .error p
    | .ok (r, s') => .ok ([(path, r)], s')
termination_by sizeOf o
decreasing_by all_goals simp_wf

end

/-- One reported diagnostic: the rendered message and the texts of its
related-information notes (positions are presentation data of the
external sink and are not modelled). -/
structure Diagnostic where
  message : String
  related : List String
  deriving DecidableEq, Repr

/-- Analyzer configuration: the `-no-args` flag
(`varfmtAnalyzer.SuppressNoArgs`). -/
structure Config where
  suppressNoArgs : Bool
  deriving DecidableEq, Repr

/-- One node delivered by `inspect.Preorder` with the filter
`[CallExpr, FuncDecl, AssignStmt]`, in preorder over the compilation
unit: a function declaration (the resolution of its name and its
parameter field list), an assignment (its left-hand sides), or a call
(callee expression and arguments). -/
inductive Event where
  | funcDecl (nameObj : Option Obj) (params : List Field)
  | assign (lhs : List Expr)
  | call (fn : Expr) (args : List Expr)

/-- The pass-through registry `passthru : map[types.Object]struct{}`,
kept as the list of member object identities in insertion order. -/
abbrev Passthru := List Nat

/-- Registry insertion `passthru[obj] = struct{}{}`. -/
def insertPt (pts : Passthru) (oid : Nat) : Passthru :=
  if oid ∈ pts then pts else pts ++ [oid]

/-- Registry deletion `delete(passthru, obj)`. -/
def erasePt (pts : Passthru) (oid : Nat) : Passthru :=
  pts.filter (fun x => x ≠ oid)

/-- The `*ast.FuncDecl` case of the traversal: a format-consuming
declaration registers the object of its `fmtarg`-th declared parameter
name, when that name and its object exist. -/
def stepFuncDecl (pts : Passthru) (nameObj : Option Obj) (params : List Field) : Passthru :=
  match nameObj with
  | none => pts
  | some obj =>
    if 0 ≤ fmtarg (some obj) then
      match nthName params (fmtarg (some obj)) with
      | none => pts
      | some id =>
        match id.obj with
        | none => pts
        | some o => insertPt pts o.id
    else pts

/-- The `*ast.AssignStmt` case of the traversal: every left-hand side
that is an identifier with a resolved object is removed from the
registry. -/
def stepAssign (pts : Passthru) : List Expr → Passthru
  | [] => pts
  | lh :: rest =>
    match lh with
    | .ident _ (some o) => stepAssign (erasePt pts o.id) rest
    | _ => stepAssign pts rest

/-- Message prefix synthesis for a general non-constant format argument:
`variable `<culprit>`` when the culprit set has exactly one element
whose rendering is shorter than 32 characters, else
`non-constant expression`. -/
def synthMsg (pp : Expr → String) (bad : BadSet) : String :=
  match bad with
  | [(_, x)] =>
    if (pp x).length < 32 then "variable `" ++ pp x ++ "`"
    else "non-constant expression"
  | _ => "non-constant expression"

/-- Handling of the extracted format argument `n.Args[checkarg]`: a bare
identifier is checked against the registry (variables report with a
`defined here` note, constants pass, other kinds warn; a nil object
makes `pt`'s `reflect.TypeOf` panic); any other expression runs
`constlit` with a fresh culprit set and on a non-constant verdict emits
one diagnostic with a `Non-constant:` note per culprit. -/
def stepArg (pp : Expr → String) (pts : Passthru) (fn arg : Expr) :
    Except GoPanic (List Diagnostic × List String) :=
  match arg with
  | .ident _ objOpt =>
    match objOpt with
    | some o =>
      match o.kind with
      | .varK =>
        if o.id ∈ pts then .ok ([], [])
        else
          .ok ([{ message := "variable `" ++ pp arg ++ "` used for " ++ pp fn
                    ++ " format parameter",
                  related := ["defined here"] }], [])
      | .constK => .ok ([], [])
      | _ =>
        match pt ("unhandled argid " ++ pp arg) false with
        | .error p => .error p
        | .ok w => .ok ([], [w])
    | none =>
      match pt ("unhandled argid " ++ pp arg) true with
      | .error p => .error p
      | .ok w => .ok ([], [w])
  | _ =>
    match constlit pp arg [] { bad := [], warns := [] } with
    | .error p => .error p
    | .ok (true, s) => .ok ([], s.warns)
    | .ok (false, s) =>
      .ok ([{ message := synthMsg pp s.bad ++ " used for " ++ pp fn ++ " format parameter",
              related := s.bad.map (fun b => "Non-constant: " ++ pp b.2) }], s.warns)

/-- The part of the `*ast.CallExpr` case after the callee has been
classified: return when `checkarg` is negative; return when
`SuppressNoArgs` is set and the call passes values beyond the format
argument (`len(n.Args)-1 > checkarg`); otherwise extract
`n.Args[checkarg]` (a Go index panic when out of range) and check it. -/
def stepCallChecked (cfg : Config) (pp : Expr → String) (pts : Passthru)
    (fn : Expr) (args : List Expr) (checkarg : Int) :
    Except GoPanic (List Diagnostic × List String) :=
  if checkarg < 0 then .ok ([], [])
  else if cfg.suppressNoArgs ∧ (args.length : Int) - 1 > checkarg then .ok ([], [])
  else
    match args[checkarg.toNat]? with
    | none => .error .indexOOB
    | some arg => stepArg pp pts fn arg

/-- The `*ast.CallExpr` case of the traversal: classify the callee
expression.  Identifiers and selectors resolve to an object (`selobj`
can panic) and yield `fmtarg`; call, type-assertion, paren and index
callees, as well as the function-literal and type-expression shapes,
leave `checkarg` at `-1`; any other shape warns and returns. -/
def stepCall (cfg : Config) (pp : Expr → String) (pts : Passthru)
    (fn : Expr) (args : List Expr) : Except GoPanic (List Diagnostic × List String) :=
  match fn with
  | .ident _ obj => stepCallChecked cfg pp pts fn args (fmtarg obj)
  | .selector _ _ so sel =>
    match selobj so sel with
    | .error p => .error p
    | .ok o => stepCallChecked cfg pp pts fn args (fmtarg (some o))
  | .call _ _ => .ok ([], [])
  | .typeAssert _ => .ok ([], [])
  | .paren _ => .ok ([], [])
  | .index _ _ => .ok ([], [])
  | .funcLit => .ok ([], [])
  | .arrayType => .ok ([], [])
  | .interfaceType => .ok ([], [])
  | .mapType => .ok ([], [])
  | .chanType => .ok ([], [])
  | .structType => .ok ([], [])
  | _ =>
    match pt ("unhandled callfun " ++ pp fn) false with
    | .error p => .error p
    | .ok w => .ok ([], [w])

/-- One step of the preorder visitor of `varfmtAnalyzer.run`: function
declarations and assignments update the registry and report nothing;
calls leave the registry unchanged and may report. -/
def step (cfg : Config) (pp : Expr → String) (pts : Passthru) :
    Event → Except GoPanic (Passthru × List Diagnostic × List String)
  | .funcDecl nameObj params => .ok (stepFuncDecl pts nameObj params, [], [])
  | .assign lhs => .ok (stepAssign pts lhs, [], [])
  | .call fn args =>
    match stepCall cfg pp pts fn args with
    | .error p => .error p
    | .ok (ds, ws) => .ok (pts, ds, ws)

/-- The whole preorder traversal from a given registry state, returning
the final registry, the diagnostics grouped per visited node, and the
accumulated warnings. -/
def runEvents (cfg : Config) (pp : Expr → String) :
    List Event → Passthru → Except GoPanic (Passthru × List (List Diagnostic) × List String)
  | [], pts => .ok (pts, [], [])
  | e :: rest, pts =>
    match step cfg pp pts e with
    | .error p => .error p
    | .ok (pts', ds, ws) =>
      match runEvents cfg pp rest pts' with
      | .error p => .error p
      | .ok (ptsF, dss, wss) => .ok (ptsF, ds :: dss, ws ++ wss)

/-- `varfmtAnalyzer.run` on one compilation unit: the registry starts
empty (`passthru := make(map[types.Object]struct{})`). -/
def run (cfg : Config) (pp : Expr → String) (events : List Event) :
    Except GoPanic (Passthru × List (List Diagnostic) × List String) :=
  runEvents cfg pp events []

mutual

/-- Resolution well-formedness of an expression, covering exactly the
places where `constlit` consults `selobj`: every selector it reaches
must carry an object or a selection.  Recursion follows `constlit`'s
recursion (selectors and index operands are not entered; a call argument
is entered only in the single-argument shape). -/
def wfE : Expr → Bool
  | .binary a b => wfE a && wfE b
  | .keyValue a b => wfE a && wfE b
  | .paren a => wfE a
  | .slice a lo hi mx => wfE a && wfOpt lo && wfOpt hi && wfOpt mx
  | .star a => wfE a
  | .typeAssert a => wfE a
  | .unary a => wfE a
  | .selector _ _ so sel => so.isSome || sel.isSome
  | .call _ args =>
    match args with
    | [a] => wfE a
    | _ => true
  | _ => true
termination_by x => sizeOf x
decreasing_by all_goals (simp_wf <;> omega)

/-- Resolution well-formedness of an optional slice operand. -/
def wfOpt : Option Expr → Bool
  | none => true
  | some e => wfE e
termination_by o => sizeOf o
decreasing_by all_goals simp_wf

end

/-- Well-formedness of one extracted format argument: a bare identifier
must resolve to an object (else `pt` panics on a nil interface), any
other expression must be resolution-well-formed for `constlit`. -/
def wfArg (arg : Expr) : Bool :=
  match arg with
  | .ident _ ao => ao.isSome
  | a => wfE a

/-- Well-formedness of the argument list of a classified call: when the
format index is non-negative, the index must be in range and the
extracted argument must be well-formed. -/
def wfCallArg (args : List Expr) (checkarg : Int) : Bool :=
  if checkarg < 0 then true
  else
    match args[checkarg.toNat]? with
    | none => false
    | some arg => wfArg arg

/-- Well-formedness of one visited node: call events must not hit any of
the panic paths (unresolved selector callee, unresolved bare-identifier
argument, out-of-range format index, unresolved selector inside a
composite argument). -/
def wfEvent : Event → Bool
  | .funcDecl _ _ => true
  | .assign _ => true
  | .call fn args =>
    match fn with
    | .ident _ o => wfCallArg args (fmtarg o)
    | .selector _ _ so sel =>
      match selobj so sel with
      | .error _ => false
      | .ok o => wfCallArg args (fmtarg (some o))
    | _ => true



theorem containsBad_ne_nil {bad : BadSet} {p : Path} (h : containsBad bad p = true) :
    bad ≠ [] := by
  intro hn
  subst hn
  simp [containsBad] at h

theorem insertBad_ne_nil (bad : BadSet) (p : Path) (x : Expr) : insertBad bad p x ≠ [] := by
  unfold insertBad
  split
  · exact containsBad_ne_nil (by assumption)
  · simp

theorem typeexprWarn_of_typeexpr (pp : Expr → String) {x : Expr} (h : typeexpr x = true) :
    typeexprWarn pp x = [] := by
  cases x <;> simp_all [typeexpr, typeexprWarn]

theorem constlitOpt_inv_aux (pp : Expr → String) (o : Option Expr) (path : Path) (s : CState)
    (rs : List (Path × Bool)) (s' : CState)
    (hInv : ∀ e, o = some e → ∀ (path : Path) (s : CState) (r : Bool) (s' : CState),
      constlit pp e path s = .ok (r, s') →
      (r = true → s' = s) ∧ (s.bad ≠ [] → s'.bad ≠ []) ∧ (r = false → s'.bad ≠ []))
    (h : constlitOpt pp o path s = .ok (rs, s')) :
    (rs.all (fun x => x.2) = true → s' = s) ∧ (s.bad ≠ [] → s'.bad ≠ []) ∧
      (rs.any (fun x => !x.2) = true → s'.bad ≠ []) := by
  cases o with
  | none =>
    simp only [constlitOpt] at h
    simp only [Except.ok.injEq, Prod.mk.injEq] at h
    obtain ⟨hrs, hs'⟩ := h
    subst hrs
    subst hs'
    exact ⟨fun _ => rfl, fun hne => hne, by simp⟩
  | some e =>
    simp only [constlitOpt] at h
    cases h0 : constlit pp e path s with
    | error p => rw [h0] at h; simp at h
    | ok v0 =>
      obtain ⟨r0, s0⟩ := v0
      have ih := hInv e rfl _ _ _ _ h0
      rw [h0] at h
      dsimp only at h
      simp only [Except.ok.injEq, Prod.mk.injEq] at h
      obtain ⟨hrs, hs'⟩ := h
      subst hrs
      subst hs'
      cases r0 with
      | false => exact ⟨by simp, ih.2.1, fun _ => ih.2.2 rfl⟩
      | true => exact ⟨fun _ => ih.1 rfl, ih.2.1, by simp⟩

theorem constlit_inv (pp : Expr → String) :
    ∀ (N : Nat) (x : Expr), sizeOf x ≤ N → ∀ (path : Path) (s : CState) (r : Bool) (s' : CState),
      constlit pp x path s = .ok (r, s') →
      (r = true → s' = s) ∧ (s.bad ≠ [] → s'.bad ≠ []) ∧ (r = false → s'.bad ≠ []) := by
  intro N
  induction N using Nat.strong_induction_on with
  | _ N IH =>
  intro x hx path s r s' h
  cases x with
  | binary a b =>
    have hsa : sizeOf a < N := by simp at hx; omega
    have hsb : sizeOf b < N := by simp at hx; omega
    simp only [constlit] at h
    cases h0 : constlit pp a (path ++ [0]) s with
    | error p => rw [h0] at h; simp at h
    | ok v0 =>
      obtain ⟨r0, s0⟩ := v0
      have iha := IH _ hsa a le_rfl _ _ _ _ h0
      rw [h0] at h
      dsimp only at h
      cases h1 : constlit pp b (path ++ [1]) s0 with
      | error p => rw [h1] at h; simp at h
      | ok v1 =>
        obtain ⟨r1, s1⟩ := v1
        have ihb := IH _ hsb b le_rfl _ _ _ _ h1
        rw [h1] at h
        dsimp only at h
        simp only [Except.ok.injEq] at h
        cases r0 <;> cases r1 <;> simp [combine] at h <;> obtain ⟨hr, hs'⟩ := h <;>
          subst hr <;> subst hs'
        · exact ⟨by simp, fun _ => insertBad_ne_nil _ _ _, fun _ => insertBad_ne_nil _ _ _⟩
        · exact ⟨by simp, fun hne => ihb.2.1 (iha.2.1 hne), fun _ => ihb.2.1 (iha.2.2 rfl)⟩
        · exact ⟨by simp, fun hne => ihb.2.1 (iha.2.1 hne), fun _ => ihb.2.2 rfl⟩
        · exact ⟨fun _ => (ihb.1 rfl).trans (iha.1 rfl), fun hne => ihb.2.1 (iha.2.1 hne), by simp⟩
  | keyValue a b =>
    have hsa : sizeOf a < N := by simp at hx; omega
    have hsb : sizeOf b < N := by simp at hx; omega
    simp only [constlit] at h
    cases h0 : constlit pp a (path ++ [0]) s with
    | error p => rw [h0] at h; simp at h
    | ok v0 =>
      obtain ⟨r0, s0⟩ := v0
      have iha := IH _ hsa a le_rfl _ _ _ _ h0
      rw [h0] at h
      dsimp only at h
      cases h1 : constlit pp b (path ++ [1]) s0 with
      | error p => rw [h1] at h; simp at h
      | ok v1 =>
        obtain ⟨r1, s1⟩ := v1
        have ihb := IH _ hsb b le_rfl _ _ _ _ h1
        rw [h1] at h
        dsimp only at h
        simp only [Except.ok.injEq] at h
        cases r0 <;> cases r1 <;> simp [combine] at h <;> obtain ⟨hr, hs'⟩ := h <;>
          subst hr <;> subst hs'
        · exact ⟨by simp, fun _ => insertBad_ne_nil _ _ _, fun _ => insertBad_ne_nil _ _ _⟩
        · exact ⟨by simp, fun hne => ihb.2.1 (iha.2.1 hne), fun _ => ihb.2.1 (iha.2.2 rfl)⟩
        · exact ⟨by simp, fun hne => ihb.2.1 (iha.2.1 hne), fun _ => ihb.2.2 rfl⟩
        · exact ⟨fun _ => (ihb.1 rfl).trans (iha.1 rfl), fun hne => ihb.2.1 (iha.2.1 hne), by simp⟩
  | paren a =>
    have hsa : sizeOf a < N := by simp at hx; omega
    simp only [constlit] at h
    cases h0 : constlit pp a (path ++ [0]) s with
    | error p => rw [h0] at h; simp at h
    | ok v0 =>
      obtain ⟨r0, s0⟩ := v0
      have iha := IH _ hsa a le_rfl _ _ _ _ h0
      rw [h0] at h
      dsimp only at h
      simp only [Except.ok.injEq] at h
      cases r0 <;> simp [combine] at h <;> obtain ⟨hr, hs'⟩ := h <;> subst hr <;> subst hs'
      · exact ⟨by simp, fun _ => insertBad_ne_nil _ _ _, fun _ => insertBad_ne_nil _ _ _⟩
      · exact ⟨fun _ => iha.1 rfl, fun hne => iha.2.1 hne, by simp⟩
  | star a =>
    have hsa : sizeOf a < N := by simp at hx; omega
    simp only [constlit] at h
    cases h0 : constlit pp a (path ++ [0]) s with
    | error p => rw [h0] at h; simp at h
    | ok v0 =>
      obtain ⟨r0, s0⟩ := v0
      have iha := IH _ hsa a le_rfl _ _ _ _ h0
      rw [h0] at h
      dsimp only at h
      simp only [Except.ok.injEq] at h
      cases r0 <;> simp [combine] at h <;> obtain ⟨hr, hs'⟩ := h <;> subst hr <;> subst hs'
      · exact ⟨by simp, fun _ => insertBad_ne_nil _ _ _, fun _ => insertBad_ne_nil _ _ _⟩
      · exact ⟨fun _ => iha.1 rfl, fun hne => iha.2.1 hne, by simp⟩
  | typeAssert a =>
    have hsa : sizeOf a < N := by simp at hx; omega
    simp only [constlit] at h
    cases h0 : constlit pp a (path ++ [0]) s with
    | error p => rw [h0] at h; simp at h
    | ok v0 =>
      obtain ⟨r0, s0⟩ := v0
      have iha := IH _ hsa a le_rfl _ _ _ _ h0
      rw [h0] at h
      dsimp only at h
      simp only [Except.ok.injEq] at h
      cases r0 <;> simp [combine] at h <;> obtain ⟨hr, hs'⟩ := h <;> subst hr <;> subst hs'
      · exact ⟨by simp, fun _ => insertBad_ne_nil _ _ _, fun _ => insertBad_ne_nil _ _ _⟩
      · exact ⟨fun _ => iha.1 rfl, fun hne => iha.2.1 hne, by simp⟩
  | unary a =>
    have hsa : sizeOf a < N := by simp at hx; omega
    simp only [constlit] at h
    cases h0 : constlit pp a (path ++ [0]) s with
    | error p => rw [h0] at h; simp at h
    | ok v0 =>
      obtain ⟨r0, s0⟩ := v0
      have iha := IH _ hsa a le_rfl _ _ _ _ h0
      rw [h0] at h
      dsimp only at h
      simp only [Except.ok.injEq] at h
      cases r0 <;> simp [combine] at h <;> obtain ⟨hr, hs'⟩ := h <;> subst hr <;> subst hs'
      · exact ⟨by simp, fun _ => insertBad_ne_nil _ _ _, fun _ => insertBad_ne_nil _ _ _⟩
      · exact ⟨fun _ => iha.1 rfl, fun hne => iha.2.1 hne, by simp⟩
  | selector xe nm so sel =>
    simp only [constlit] at h
    cases hso : selobj so sel with
    | error p => rw [hso] at h; simp at h
    | ok o =>
      rw [hso] at h
      dsimp only at h
      by_cases hc : constobj (some o) = true
      · simp only [hc, if_true, Except.ok.injEq, Prod.mk.injEq] at h
        obtain ⟨hr, hs'⟩ := h
        subst hr
        subst hs'
        exact ⟨fun _ => rfl, fun hne => hne, by simp⟩
      · simp only [hc, if_false, Bool.false_eq_true, Except.ok.injEq, Prod.mk.injEq] at h
        obtain ⟨hr, hs'⟩ := h
        subst hr
        subst hs'
        exact ⟨by simp, fun _ => insertBad_ne_nil _ _ _, fun _ => insertBad_ne_nil _ _ _⟩
  | basicLit v =>
    simp only [constlit, Except.ok.injEq, Prod.mk.injEq] at h
    obtain ⟨hr, hs'⟩ := h
    subst hr
    subst hs'
    exact ⟨fun _ => rfl, fun hne => hne, by simp⟩
  | ident nm obj =>
    simp only [constlit] at h
    by_cases hc : constobj obj = true
    · simp only [hc, if_true, Except.ok.injEq, Prod.mk.injEq] at h
      obtain ⟨hr, hs'⟩ := h
      subst hr
      subst hs'
      exact ⟨fun _ => rfl, fun hne => hne, by simp⟩
    · simp only [hc, if_false, Bool.false_eq_true, Except.ok.injEq, Prod.mk.injEq] at h
      obtain ⟨hr, hs'⟩ := h
      subst hr
      subst hs'
      exact ⟨by simp, fun _ => insertBad_ne_nil _ _ _, fun _ => insertBad_ne_nil _ _ _⟩
  | index xe k =>
    simp only [constlit, Except.ok.injEq, Prod.mk.injEq] at h
    obtain ⟨hr, hs'⟩ := h
    subst hr
    subst hs'
    exact ⟨by simp, fun _ => insertBad_ne_nil _ _ _, fun _ => insertBad_ne_nil _ _ _⟩
  | call fn args =>
    cases args with
    | nil =>
      simp only [constlit, Except.ok.injEq, Prod.mk.injEq] at h
      obtain ⟨hr, hs'⟩ := h
      subst hr
      subst hs'
      exact ⟨by simp, fun _ => insertBad_ne_nil _ _ _, fun _ => insertBad_ne_nil _ _ _⟩
    | cons a rest =>
      cases rest with
      | cons b rest2 =>
        simp only [constlit, Except.ok.injEq, Prod.mk.injEq] at h
        obtain ⟨hr, hs'⟩ := h
        subst hr
        subst hs'
        exact ⟨by simp, fun _ => insertBad_ne_nil _ _ _, fun _ => insertBad_ne_nil _ _ _⟩
      | nil =>
        have hsa : sizeOf a < N := by simp at hx; omega
        simp only [constlit] at h
        by_cases ht : typeexpr fn = true
        · rw [typeexprWarn_of_typeexpr pp ht] at h
          simp only [ht, if_true, List.append_nil] at h
          cases h0 : constlit pp a (path ++ [0]) { bad := s.bad, warns := s.warns } with
          | error p => rw [h0] at h; simp at h
          | ok v0 =>
            obtain ⟨r0, s0⟩ := v0
            have iha := IH _ hsa a le_rfl _ _ _ _ h0
            rw [h0] at h
            cases r0 with
            | true =>
              dsimp only at h
              simp only [Except.ok.injEq, Prod.mk.injEq] at h
              obtain ⟨hr, hs'⟩ := h
              subst hr
              subst hs'
              exact ⟨fun _ => iha.1 rfl, fun hne => iha.2.1 hne, by simp⟩
            | false =>
              dsimp only at h
              simp only [Except.ok.injEq, Prod.mk.injEq] at h
              obtain ⟨hr, hs'⟩ := h
              subst hr
              subst hs'
              exact ⟨by simp, fun _ => insertBad_ne_nil _ _ _, fun _ => insertBad_ne_nil _ _ _⟩
        · simp only [ht, if_false, Bool.false_eq_true, Except.ok.injEq, Prod.mk.injEq] at h
          obtain ⟨hr, hs'⟩ := h
          subst hr
          subst hs'
          exact ⟨by simp, fun _ => insertBad_ne_nil _ _ _, fun _ => insertBad_ne_nil _ _ _⟩
  | funcLit =>
    simp only [constlit, pt, Bool.false_eq_true, if_false, Except.ok.injEq, Prod.mk.injEq] at h
    obtain ⟨hr, hs'⟩ := h
    subst hr
    subst hs'
    exact ⟨by simp, fun _ => insertBad_ne_nil _ _ _, fun _ => insertBad_ne_nil _ _ _⟩
  | arrayType =>
    simp only [constlit, pt, Bool.false_eq_true, if_false, Except.ok.injEq, Prod.mk.injEq] at h
    obtain ⟨hr, hs'⟩ := h
    subst hr
    subst hs'
    exact ⟨by simp, fun _ => insertBad_ne_nil _ _ _, fun _ => insertBad_ne_nil _ _ _⟩
  | interfaceType =>
    simp only [constlit, pt, Bool.false_eq_true, if_false, Except.ok.injEq, Prod.mk.injEq] at h
    obtain ⟨hr, hs'⟩ := h
    subst hr
    subst hs'
    exact ⟨by simp, fun _ => insertBad_ne_nil _ _ _, fun _ => insertBad_ne_nil _ _ _⟩
  | mapType =>
    simp only [constlit, pt, Bool.false_eq_true, if_false, Except.ok.injEq, Prod.mk.injEq] at h
    obtain ⟨hr, hs'⟩ := h
    subst hr
    subst hs'
    exact ⟨by simp, fun _ => insertBad_ne_nil _ _ _, fun _ => insertBad_ne_nil _ _ _⟩
  | chanType =>
    simp only [constlit, pt, Bool.false_eq_true, if_false, Except.ok.injEq, Prod.mk.injEq] at h
    obtain ⟨hr, hs'⟩ := h
    subst hr
    subst hs'
    exact ⟨by simp, fun _ => insertBad_ne_nil _ _ _, fun _ => insertBad_ne_nil _ _ _⟩
  | structType =>
    simp only [constlit, pt, Bool.false_eq_true, if_false, Except.ok.injEq, Prod.mk.injEq] at h
    obtain ⟨hr, hs'⟩ := h
    subst hr
    subst hs'
    exact ⟨by simp, fun _ => insertBad_ne_nil _ _ _, fun _ => insertBad_ne_nil _ _ _⟩
  | other kind =>
    simp only [constlit, pt, Bool.false_eq_true, if_false, Except.ok.injEq, Prod.mk.injEq] at h
    obtain ⟨hr, hs'⟩ := h
    subst hr
    subst hs'
    exact ⟨by simp, fun _ => insertBad_ne_nil _ _ _, fun _ => insertBad_ne_nil _ _ _⟩
  | slice a lo hi mx =>
    have hsa : sizeOf a < N := by simp at hx; omega
    have hslo : ∀ e, lo = some e → sizeOf e < N := by
      intro e he; subst he; simp at hx; omega
    have hshi : ∀ e, hi = some e → sizeOf e < N := by
      intro e he; subst he; simp at hx; omega
    have hsmx : ∀ e, mx = some e → sizeOf e < N := by
      intro e he; subst he; simp at hx; omega
    simp only [constlit] at h
    cases h0 : constlit pp a (path ++ [0]) s with
    | error p => rw [h0] at h; simp at h
    | ok v0 =>
      obtain ⟨r0, s0⟩ := v0
      have iha := IH _ hsa a le_rfl _ _ _ _ h0
      rw [h0] at h
      dsimp only at h
      cases h1 : constlitOpt pp lo (path ++ [1]) s0 with
      | error p => rw [h1] at h; simp at h
      | ok v1 =>
        obtain ⟨rs1, s1⟩ := v1
        have ih1 := constlitOpt_inv_aux pp lo (path ++ [1]) s0 rs1 s1
          (fun e he => IH _ (hslo e he) e le_rfl) h1
        rw [h1] at h
        dsimp only at h
        cases h2 : constlitOpt pp hi (path ++ [2]) s1 with
        | error p => rw [h2] at h; simp at h
        | ok v2 =>
          obtain ⟨rs2, s2⟩ := v2
          have ih2 := constlitOpt_inv_aux pp hi (path ++ [2]) s1 rs2 s2
            (fun e he => IH _ (hshi e he) e le_rfl) h2
          rw [h2] at h
          dsimp only at h
          cases h3 : constlitOpt pp mx (path ++ [3]) s2 with
          | error p => rw [h3] at h; simp at h
          | ok v3 =>
            obtain ⟨rs3, s3⟩ := v3
            have ih3 := constlitOpt_inv_aux pp mx (path ++ [3]) s2 rs3 s3
              (fun e he => IH _ (hsmx e he) e le_rfl) h3
            rw [h3] at h
            dsimp only at h
            simp only [Except.ok.injEq] at h
            by_cases hab :
                (((path ++ [0], r0) :: (rs1 ++ rs2 ++ rs3)).all fun x => !x.2) = true
            · simp only [combine, hab, if_true, Prod.mk.injEq] at h
              obtain ⟨hr, hs'⟩ := h
              subst hs'
              refine ⟨fun hrt => ?_, fun _ => insertBad_ne_nil _ _ _,
                fun _ => insertBad_ne_nil _ _ _⟩
              exfalso
              subst hrt
              simp only [List.all_cons, Bool.and_eq_true, Bool.not_eq_eq_eq_not,
                Bool.not_true] at hab hr
              rw [hab.1] at hr
              exact absurd hr.1 (by simp)
            · simp only [combine, hab, Bool.false_eq_true, if_false, Prod.mk.injEq] at h
              obtain ⟨hr, hs'⟩ := h
              subst hs'
              constructor
              · intro hrt
                subst hrt
                simp only [List.all_cons, List.all_append, Bool.and_eq_true] at hr
                obtain ⟨hr0, ⟨ha1, ha2⟩, ha3⟩ := hr
                rw [ih3.1 ha3, ih2.1 ha2, ih1.1 ha1, iha.1 hr0]
              · constructor
                · intro hne
                  exact ih3.2.1 (ih2.2.1 (ih1.2.1 (iha.2.1 hne)))
                · intro hrf
                  subst hrf
                  have : r0 = false ∨ (rs1 ++ rs2 ++ rs3).any (fun x => !x.2) = true := by
                    by_contra hcon
                    push_neg at hcon
                    obtain ⟨hc0, hc1⟩ := hcon
                    have hr0t : r0 = true := by
                      cases r0
                      · exact absurd rfl hc0
                      · rfl
                    have hallt : ((rs1 ++ rs2 ++ rs3).all fun x => x.2) = true := by
                      rw [List.all_eq_true]
                      intro x hxm
                      by_contra hxf
                      have : ((rs1 ++ rs2 ++ rs3).any fun x => !x.2) = true := by
                        rw [List.any_eq_true]
                        exact ⟨x, hxm, by simp [Bool.not_eq_true'] at hxf ⊢; exact hxf⟩
                      exact hc1 this
                    have : (((path ++ [0], r0) :: (rs1 ++ rs2 ++ rs3)).all fun x => x.2) = true := by
                      simp only [List.all_cons, hr0t, Bool.true_and]
                      exact hallt
                    simp only [List.all_cons, hr0t] at hr
                    rw [Bool.true_and] at hr
                    rw [hallt] at hr
                    exact absurd hr (by simp)
                  cases this with
                  | inl h0f =>
                    subst h0f
                    exact ih3.2.1 (ih2.2.1 (ih1.2.1 (iha.2.2 rfl)))
                  | inr hany =>
                    simp only [List.any_append, Bool.or_eq_true] at hany
                    cases hany with
                    | inl h12 =>
                      cases h12 with
                      | inl h1a => exact ih3.2.1 (ih2.2.1 (ih1.2.2 h1a))
                      | inr h2a => exact ih3.2.1 (ih2.2.2 h2a)
                    | inr h3a => exact ih3.2.2 h3a



theorem selobj_ok {so sel : Option Obj} (h : (so.isSome || sel.isSome) = true) :
    ∃ o, selobj so sel = .ok o := by
  cases so with
  | some o => exact ⟨o, rfl⟩
  | none =>
    cases sel with
    | some o => exact ⟨o, rfl⟩
    | none => simp at h

theorem constlitOpt_ok_aux (pp : Expr → String) (o : Option Expr) (path : Path) (s : CState)
    (hInv : ∀ e, o = some e → ∀ (path : Path) (s : CState),
      ∃ v, constlit pp e path s = .ok v) :
    ∃ v, constlitOpt pp o path s = .ok v := by
  cases o with
  | none => exact ⟨([], s), by simp only [constlitOpt]⟩
  | some e =>
    obtain ⟨⟨r, s'⟩, h⟩ := hInv e rfl path s
    exact ⟨([(path, r)], s'), by
      simp only [constlitOpt]
      rw [h]⟩

theorem constlit_ok_of_wf (pp : Expr → String) :
    ∀ (N : Nat) (x : Expr), sizeOf x ≤ N → wfE x = true → ∀ (path : Path) (s : CState),
      ∃ v, constlit pp x path s = .ok v := by
  intro N
  induction N using Nat.strong_induction_on with
  | _ N IH =>
  intro x hx hwf path s
  cases x with
  | binary a b =>
    have hsa : sizeOf a < N := by simp at hx; omega
    have hsb : sizeOf b < N := by simp at hx; omega
    simp only [wfE, Bool.and_eq_true] at hwf
    obtain ⟨⟨r0, s0⟩, h0⟩ := IH _ hsa a le_rfl hwf.1 (path ++ [0]) s
    obtain ⟨⟨r1, s1⟩, h1⟩ := IH _ hsb b le_rfl hwf.2 (path ++ [1]) s0
    exact ⟨_, by
      simp only [constlit]
      rw [h0]
      dsimp only
      rw [h1]⟩
  | keyValue a b =>
    have hsa : sizeOf a < N := by simp at hx; omega
    have hsb : sizeOf b < N := by simp at hx; omega
    simp only [wfE, Bool.and_eq_true] at hwf
    obtain ⟨⟨r0, s0⟩, h0⟩ := IH _ hsa a le_rfl hwf.1 (path ++ [0]) s
    obtain ⟨⟨r1, s1⟩, h1⟩ := IH _ hsb b le_rfl hwf.2 (path ++ [1]) s0
    exact ⟨_, by
      simp only [constlit]
      rw [h0]
      dsimp only
      rw [h1]⟩
  | paren a =>
    have hsa : sizeOf a < N := by simp at hx; omega
    simp only [wfE] at hwf
    obtain ⟨⟨r0, s0⟩, h0⟩ := IH _ hsa a le_rfl hwf (path ++ [0]) s
    exact ⟨_, by
      simp only [constlit]
      rw [h0]⟩
  | star a =>
    have hsa : sizeOf a < N := by simp at hx; omega
    simp only [wfE] at hwf
    obtain ⟨⟨r0, s0⟩, h0⟩ := IH _ hsa a le_rfl hwf (path ++ [0]) s
    exact ⟨_, by
      simp only [constlit]
      rw [h0]⟩
  | typeAssert a =>
    have hsa : sizeOf a < N := by simp at hx; omega
    simp only [wfE] at hwf
    obtain ⟨⟨r0, s0⟩, h0⟩ := IH _ hsa a le_rfl hwf (path ++ [0]) s
    exact ⟨_, by
      simp only [constlit]
      rw [h0]⟩
  | unary a =>
    have hsa : sizeOf a < N := by simp at hx; omega
    simp only [wfE] at hwf
    obtain ⟨⟨r0, s0⟩, h0⟩ := IH _ hsa a le_rfl hwf (path ++ [0]) s
    exact ⟨_, by
      simp only [constlit]
      rw [h0]⟩
  | selector xe nm so sel =>
    simp only [wfE] at hwf
    obtain ⟨o, ho⟩ := selobj_ok hwf
    by_cases hc : constobj (some o) = true
    · exact ⟨_, by
        simp only [constlit]
        rw [ho]
        dsimp only
        rw [if_pos hc]⟩
    · exact ⟨_, by
        simp only [constlit]
        rw [ho]
        dsimp only
        rw [if_neg hc]⟩
  | basicLit v => exact ⟨(true, s), by simp only [constlit]⟩
  | ident nm obj =>
    by_cases hc : constobj obj = true
    · exact ⟨(true, s), by simp only [constlit]; rw [if_pos hc]⟩
    · exact ⟨_, by simp only [constlit]; rw [if_neg hc]⟩
  | index xe k => exact ⟨_, by simp only [constlit]; rfl⟩
  | funcLit => exact ⟨_, by simp only [constlit, pt, Bool.false_eq_true, if_false]; rfl⟩
  | arrayType => exact ⟨_, by simp only [constlit, pt, Bool.false_eq_true, if_false]; rfl⟩
  | interfaceType => exact ⟨_, by simp only [constlit, pt, Bool.false_eq_true, if_false]; rfl⟩
  | mapType => exact ⟨_, by simp only [constlit, pt, Bool.false_eq_true, if_false]; rfl⟩
  | chanType => exact ⟨_, by simp only [constlit, pt, Bool.false_eq_true, if_false]; rfl⟩
  | structType => exact ⟨_, by simp only [constlit, pt, Bool.false_eq_true, if_false]; rfl⟩
  | other kind => exact ⟨_, by simp only [constlit, pt, Bool.false_eq_true, if_false]; rfl⟩
  | call fn args =>
    cases args with
    | nil => exact ⟨_, by simp only [constlit]; rfl⟩
    | cons a rest =>
      cases rest with
      | cons b rest2 => exact ⟨_, by simp only [constlit]; rfl⟩
      | nil =>
        have hsa : sizeOf a < N := by simp at hx; omega
        have hwa : wfE a = true := by simpa only [wfE] using hwf
        by_cases ht : typeexpr fn = true
        · obtain ⟨⟨r0, s0⟩, h0⟩ :=
            IH _ hsa a le_rfl hwa (path ++ [0]) { s with warns := s.warns ++ typeexprWarn pp fn }
          cases r0 with
          | true =>
            exact ⟨_, by
              simp only [constlit]
              rw [if_pos ht]
              rw [h0]⟩
          | false =>
            exact ⟨_, by
              simp only [constlit]
              rw [if_pos ht]
              rw [h0]⟩
        · exact ⟨_, by
            simp only [constlit]
            rw [if_neg ht]⟩
  | slice a lo hi mx =>
    have hsa : sizeOf a < N := by simp at hx; omega
    have hslo : ∀ e, lo = some e → sizeOf e < N := by
      intro e he; subst he; simp at hx; omega
    have hshi : ∀ e, hi = some e → sizeOf e < N := by
      intro e he; subst he; simp at hx; omega
    have hsmx : ∀ e, mx = some e → sizeOf e < N := by
      intro e he; subst he; simp at hx; omega
    simp only [wfE, Bool.and_eq_true] at hwf
    obtain ⟨⟨⟨hwa, hwlo⟩, hwhi⟩, hwmx⟩ := hwf
    have hwOpt : ∀ (o : Option Expr), wfOpt o = true → ∀ e, o = some e → wfE e = true := by
      intro o hwo e he
      subst he
      simpa only [wfOpt] using hwo
    obtain ⟨⟨r0, s0⟩, h0⟩ := IH _ hsa a le_rfl hwa (path ++ [0]) s
    obtain ⟨⟨rs1, s1⟩, h1⟩ := constlitOpt_ok_aux pp lo (path ++ [1]) s0
      (fun e he => IH _ (hslo e he) e le_rfl (hwOpt lo hwlo e he))
    obtain ⟨⟨rs2, s2⟩, h2⟩ := constlitOpt_ok_aux pp hi (path ++ [2]) s1
      (fun e he => IH _ (hshi e he) e le_rfl (hwOpt hi hwhi e he))
    obtain ⟨⟨rs3, s3⟩, h3⟩ := constlitOpt_ok_aux pp mx (path ++ [3]) s2
      (fun e he => IH _ (hsmx e he) e le_rfl (hwOpt mx hwmx e he))
    exact ⟨_, by
      simp only [constlit]
      rw [h0]
      dsimp only
      rw [h1]
      dsimp only
      rw [h2]
      dsimp only
      rw [h3]⟩


/-- The event is an assignment having the object with identity `oid` as
one of its identifier left-hand sides (the registry-invalidation
trigger). -/
def EAssigns (e : Event) (oid : Nat) : Prop :=
  match e with
  | .assign lhs => ∃ nm o, Expr.ident nm (some o) ∈ lhs ∧ o.id = oid
  | _ => False

/-- The event is a function declaration whose registration adds the
object with identity `oid` to the registry: its name resolves, it is
format-consuming, and its format-index parameter name exists and
resolves to that object. -/
def ERegisters (e : Event) (oid : Nat) : Prop :=
  match e with
  | .funcDecl nameObj params =>
    ∃ fo idp o, nameObj = some fo ∧ 0 ≤ fmtarg (some fo) ∧
      nthName params (fmtarg (some fo)) = some idp ∧ idp.obj = some o ∧ o.id = oid
  | _ => False

theorem mem_insertPt_self (pts : Passthru) (oid : Nat) : oid ∈ insertPt pts oid := by
  unfold insertPt
  split
  · assumption
  · simp

theorem mem_insertPt_of_mem {pts : Passthru} {a : Nat} (oid : Nat) (h : a ∈ pts) :
    a ∈ insertPt pts oid := by
  unfold insertPt
  split
  · exact h
  · simp [h]

theorem mem_of_mem_insertPt {pts : Passthru} {a oid : Nat} (h : a ∈ insertPt pts oid) :
    a ∈ pts ∨ a = oid := by
  unfold insertPt at h
  split at h
  · exact Or.inl h
  · simpa using h

theorem not_mem_erasePt_self (pts : Passthru) (oid : Nat) : oid ∉ erasePt pts oid := by
  simp [erasePt]

theorem mem_erasePt_of_mem {pts : Passthru} {a : Nat} (oid : Nat) (h : a ∈ pts)
    (hne : a ≠ oid) : a ∈ erasePt pts oid := by
  simp [erasePt, List.mem_filter, h, hne]

theorem not_mem_erasePt_of_not_mem {pts : Passthru} {a : Nat} (oid : Nat) (h : a ∉ pts) :
    a ∉ erasePt pts oid := by
  simp only [erasePt, List.mem_filter]
  intro hc
  exact h hc.1

theorem stepAssign_not_mem {a : Nat} :
    ∀ (lhs : List Expr) (pts : Passthru), a ∉ pts → a ∉ stepAssign pts lhs := by
  intro lhs
  induction lhs with
  | nil => intro pts h; simpa [stepAssign] using h
  | cons lh rest ih =>
    intro pts h
    cases lh with
    | ident nm obj =>
      cases obj with
      | some o => exact ih _ (not_mem_erasePt_of_not_mem o.id h)
      | none => exact ih _ h
    | basicLit v => exact ih _ h
    | binary x y => exact ih _ h
    | keyValue x y => exact ih _ h
    | paren x => exact ih _ h
    | slice x lo hi mx => exact ih _ h
    | star x => exact ih _ h
    | typeAssert x => exact ih _ h
    | selector x nm so sel => exact ih _ h
    | call fn args => exact ih _ h
    | index x k => exact ih _ h
    | unary x => exact ih _ h
    | funcLit => exact ih _ h
    | arrayType => exact ih _ h
    | interfaceType => exact ih _ h
    | mapType => exact ih _ h
    | chanType => exact ih _ h
    | structType => exact ih _ h
    | other kind => exact ih _ h

theorem stepAssign_mem {a : Nat} :
    ∀ (lhs : List Expr) (pts : Passthru), a ∈ pts →
      (∀ nm o, Expr.ident nm (some o) ∈ lhs → o.id ≠ a) → a ∈ stepAssign pts lhs := by
  intro lhs
  induction lhs with
  | nil => intro pts h _; simpa [stepAssign] using h
  | cons lh rest ih =>
    intro pts h hno
    have hrest : ∀ nm o, Expr.ident nm (some o) ∈ rest → o.id ≠ a := by
      intro nm o hm
      exact hno nm o (List.mem_cons_of_mem _ hm)
    cases lh with
    | ident nm obj =>
      cases obj with
      | some o =>
        have hne : a ≠ o.id := by
          intro hc
          exact hno nm o (List.mem_cons_self _ _) (by omega)
        exact ih _ (mem_erasePt_of_mem o.id h hne) hrest
      | none => exact ih _ h hrest
    | basicLit v => exact ih _ h hrest
    | binary x y => exact ih _ h hrest
    | keyValue x y => exact ih _ h hrest
    | paren x => exact ih _ h hrest
    | slice x lo hi mx => exact ih _ h hrest
    | star x => exact ih _ h hrest
    | typeAssert x => exact ih _ h hrest
    | selector x nm so sel => exact ih _ h hrest
    | call fn args => exact ih _ h hrest
    | index x k => exact ih _ h hrest
    | unary x => exact ih _ h hrest
    | funcLit => exact ih _ h hrest
    | arrayType => exact ih _ h hrest
    | interfaceType => exact ih _ h hrest
    | mapType => exact ih _ h hrest
    | chanType => exact ih _ h hrest
    | structType => exact ih _ h hrest
    | other kind => exact ih _ h hrest

theorem stepAssign_removes {a : Nat} :
    ∀ (lhs : List Expr) (pts : Passthru) (nm : String) (o : Obj),
      Expr.ident nm (some o) ∈ lhs → o.id = a → a ∉ stepAssign pts lhs := by
  intro lhs
  induction lhs with
  | nil => intro pts nm o hm; simp at hm
  | cons lh rest ih =>
    intro pts nm o hm hid
    rcases List.mem_cons.mp hm with heq | hmr
    · subst heq
      subst hid
      exact stepAssign_not_mem rest _ (not_mem_erasePt_self pts o.id)
    · cases lh with
      | ident nm2 obj =>
        cases obj with
        | some o2 => exact ih _ nm o hmr hid
        | none => exact ih _ nm o hmr hid
      | basicLit v => exact ih _ nm o hmr hid
      | binary x y => exact ih _ nm o hmr hid
      | keyValue x y => exact ih _ nm o hmr hid
      | paren x => exact ih _ nm o hmr hid
      | slice x lo hi mx => exact ih _ nm o hmr hid
      | star x => exact ih _ nm o hmr hid
      | typeAssert x => exact ih _ nm o hmr hid
      | selector x nm2 so sel => exact ih _ nm o hmr hid
      | call fn args => exact ih _ nm o hmr hid
      | index x k => exact ih _ nm o hmr hid
      | unary x => exact ih _ nm o hmr hid
      | funcLit => exact ih _ nm o hmr hid
      | arrayType => exact ih _ nm o hmr hid
      | interfaceType => exact ih _ nm o hmr hid
      | mapType => exact ih _ nm o hmr hid
      | chanType => exact ih _ nm o hmr hid
      | structType => exact ih _ nm o hmr hid
      | other kind => exact ih _ nm o hmr hid



theorem mem_stepFuncDecl_of_mem {pts : Passthru} {a : Nat} (nameObj : Option Obj)
    (params : List Field) (h : a ∈ pts) : a ∈ stepFuncDecl pts nameObj params := by
  cases nameObj with
  | none => simpa only [stepFuncDecl] using h
  | some obj =>
    simp only [stepFuncDecl]
    by_cases hf : 0 ≤ fmtarg (some obj)
    · rw [if_pos hf]
      cases hn : nthName params (fmtarg (some obj)) with
      | none => exact h
      | some idp =>
        dsimp only
        cases ho : idp.obj with
        | none => exact h
        | some o => exact mem_insertPt_of_mem _ h
    · rw [if_neg hf]
      exact h

theorem mem_stepFuncDecl {pts : Passthru} {a : Nat} {nameObj : Option Obj}
    {params : List Field} (h : a ∈ stepFuncDecl pts nameObj params) :
    a ∈ pts ∨ ERegisters (.funcDecl nameObj params) a := by
  cases nameObj with
  | none => simp only [stepFuncDecl] at h; exact Or.inl h
  | some obj =>
    simp only [stepFuncDecl] at h
    by_cases hf : 0 ≤ fmtarg (some obj)
    · rw [if_pos hf] at h
      cases hn : nthName params (fmtarg (some obj)) with
      | none => rw [hn] at h; exact Or.inl h
      | some idp =>
        rw [hn] at h
        dsimp only at h
        cases ho : idp.obj with
        | none => rw [ho] at h; exact Or.inl h
        | some o =>
          rw [ho] at h
          rcases mem_of_mem_insertPt h with hm | he
          · exact Or.inl hm
          · exact Or.inr ⟨obj, idp, o, rfl, hf, hn, ho, he.symm⟩
    · rw [if_neg hf] at h
      exact Or.inl h

theorem stepFuncDecl_of_registers {pts : Passthru} {a : Nat} {nameObj : Option Obj}
    {params : List Field} (h : ERegisters (.funcDecl nameObj params) a) :
    a ∈ stepFuncDecl pts nameObj params := by
  obtain ⟨fo, idp, o, hno, hf, hn, ho, hid⟩ := h
  subst hno
  simp only [stepFuncDecl]
  rw [if_pos hf, hn]
  dsimp only
  rw [ho]
  subst hid
  exact mem_insertPt_self pts o.id

theorem step_call_registry {cfg : Config} {pp : Expr → String} {pts : Passthru}
    {fn : Expr} {args : List Expr} {v : Passthru × List Diagnostic × List String}
    (h : step cfg pp pts (.call fn args) = .ok v) : v.1 = pts := by
  simp only [step] at h
  cases hc : stepCall cfg pp pts fn args with
  | error p => rw [hc] at h; simp at h
  | ok dw =>
    rw [hc] at h
    obtain ⟨ds, ws⟩ := dw
    simp only [Except.ok.injEq] at h
    rw [← h]

theorem step_mem_or {cfg : Config} {pp : Expr → String} {pts : Passthru} {e : Event}
    {pts' : Passthru} {ds : List Diagnostic} {ws : List String} {oid : Nat}
    (h : step cfg pp pts e = .ok (pts', ds, ws)) (hm : oid ∈ pts) :
    oid ∈ pts' ∨ EAssigns e oid := by
  cases e with
  | funcDecl nameObj params =>
    simp only [step, Except.ok.injEq, Prod.mk.injEq] at h
    obtain ⟨h1, _, _⟩ := h
    subst h1
    exact Or.inl (mem_stepFuncDecl_of_mem nameObj params hm)
  | assign lhs =>
    simp only [step, Except.ok.injEq, Prod.mk.injEq] at h
    obtain ⟨h1, _, _⟩ := h
    subst h1
    by_cases ha : ∃ nm o, Expr.ident nm (some o) ∈ lhs ∧ o.id = oid
    · exact Or.inr ha
    · push_neg at ha
      exact Or.inl (stepAssign_mem lhs pts hm (fun nm o hmem => ha nm o hmem))
  | call fn args =>
    have := step_call_registry h
    simp only at this
    subst this
    exact Or.inl hm

theorem step_not_mem {cfg : Config} {pp : Expr → String} {pts : Passthru} {e : Event}
    {pts' : Passthru} {ds : List Diagnostic} {ws : List String} {oid : Nat}
    (h : step cfg pp pts e = .ok (pts', ds, ws)) (hm : oid ∉ pts)
    (hr : ¬ ERegisters e oid) : oid ∉ pts' := by
  cases e with
  | funcDecl nameObj params =>
    simp only [step, Except.ok.injEq, Prod.mk.injEq] at h
    obtain ⟨h1, _, _⟩ := h
    subst h1
    intro hc
    rcases mem_stepFuncDecl hc with hin | hreg
    · exact hm hin
    · exact hr hreg
  | assign lhs =>
    simp only [step, Except.ok.injEq, Prod.mk.injEq] at h
    obtain ⟨h1, _, _⟩ := h
    subst h1
    exact stepAssign_not_mem lhs pts hm
  | call fn args =>
    have := step_call_registry h
    simp only at this
    subst this
    exact hm

theorem runEvents_append (cfg : Config) (pp : Expr → String) :
    ∀ (l1 l2 : List Event) (pts : Passthru),
      runEvents cfg pp (l1 ++ l2) pts =
        match runEvents cfg pp l1 pts with
        | .error p => .error p
        | .ok (pts1, dss1, ws1) =>
          match runEvents cfg pp l2 pts1 with
          | .error p => .error p
          | .ok (pts2, dss2, ws2) => .ok (pts2, dss1 ++ dss2, ws1 ++ ws2) := by
  intro l1
  induction l1 with
  | nil =>
    intro l2 pts
    simp only [List.nil_append, runEvents]
    cases runEvents cfg pp l2 pts with
    | error p => rfl
    | ok v =>
      obtain ⟨pts2, dss2, ws2⟩ := v
      simp
  | cons e rest ih =>
    intro l2 pts
    simp only [List.cons_append, runEvents]
    cases step cfg pp pts e with
    | error p => rfl
    | ok v =>
      obtain ⟨pts1, ds, ws⟩ := v
      dsimp only
      rw [show rest.append l2 = rest ++ l2 from rfl, ih l2 pts1]
      cases runEvents cfg pp rest pts1 with
      | error p => rfl
      | ok v1 =>
        obtain ⟨pts2, dss1, ws1⟩ := v1
        dsimp only
        cases runEvents cfg pp l2 pts2 with
        | error p => rfl
        | ok v2 =>
          obtain ⟨pts3, dss2, ws2⟩ := v2
          dsimp only
          simp



theorem runEvents_mem_persist {cfg : Config} {pp : Expr → String} {oid : Nat} :
    ∀ (l : List Event) (pts : Passthru) {v}, runEvents cfg pp l pts = .ok v →
      oid ∈ pts → (∀ e ∈ l, ¬ EAssigns e oid) → oid ∈ v.1 := by
  intro l
  induction l with
  | nil =>
    intro pts v h hm _
    simp only [runEvents, Except.ok.injEq] at h
    rw [← h]
    exact hm
  | cons e rest ih =>
    intro pts v h hm hno
    simp only [runEvents] at h
    cases hs : step cfg pp pts e with
    | error p => rw [hs] at h; simp at h
    | ok w =>
      obtain ⟨pts1, ds, ws⟩ := w
      rw [hs] at h
      dsimp only at h
      cases hr : runEvents cfg pp rest pts1 with
      | error p => rw [hr] at h; simp at h
      | ok v1 =>
        obtain ⟨pts2, dss, wss⟩ := v1
        rw [hr] at h
        dsimp only at h
        simp only [Except.ok.injEq] at h
        subst h
        have hm1 : oid ∈ pts1 := by
          rcases step_mem_or hs hm with h1 | h2
          · exact h1
          · exact absurd h2 (hno e (List.mem_cons_self _ _))
        have hres := ih pts1 hr hm1 (fun e2 hm2 => hno e2 (List.mem_cons_of_mem _ hm2))
        exact hres

theorem runEvents_not_mem_persist {cfg : Config} {pp : Expr → String} {oid : Nat} :
    ∀ (l : List Event) (pts : Passthru) {v}, runEvents cfg pp l pts = .ok v →
      oid ∉ pts → (∀ e ∈ l, ¬ ERegisters e oid) → oid ∉ v.1 := by
  intro l
  induction l with
  | nil =>
    intro pts v h hm _
    simp only [runEvents, Except.ok.injEq] at h
    rw [← h]
    exact hm
  | cons e rest ih =>
    intro pts v h hm hno
    simp only [runEvents] at h
    cases hs : step cfg pp pts e with
    | error p => rw [hs] at h; simp at h
    | ok w =>
      obtain ⟨pts1, ds, ws⟩ := w
      rw [hs] at h
      dsimp only at h
      cases hr : runEvents cfg pp rest pts1 with
      | error p => rw [hr] at h; simp at h
      | ok v1 =>
        obtain ⟨pts2, dss, wss⟩ := v1
        rw [hr] at h
        dsimp only at h
        simp only [Except.ok.injEq] at h
        subst h
        have hm1 : oid ∉ pts1 := step_not_mem hs hm (hno e (List.mem_cons_self _ _))
        have hres := ih pts1 hr hm1 (fun e2 hm2 => hno e2 (List.mem_cons_of_mem _ hm2))
        exact hres

theorem stepArg_ok_ident {pp : Expr → String} {pts : Passthru} {fn : Expr} {nm : String}
    {o : Obj} : ∃ dw, stepArg pp pts fn (.ident nm (some o)) = .ok dw := by
  simp only [stepArg]
  cases o.kind with
  | varK =>
    by_cases hm : o.id ∈ pts
    · exact ⟨_, by rw [if_pos hm]⟩
    · exact ⟨_, by rw [if_neg hm]⟩
  | constK => exact ⟨_, rfl⟩
  | funcK pk n => exact ⟨_, rfl⟩
  | typeK => exact ⟨_, rfl⟩
  | otherK => exact ⟨_, rfl⟩

theorem stepArg_ok_of_wf {pp : Expr → String} {pts : Passthru} {fn arg : Expr}
    (hwf : wfArg arg = true) :
    ∃ dw, stepArg pp pts fn arg = .ok dw := by
  cases arg with
  | ident nm obj =>
    cases obj with
    | none => simp [wfArg] at hwf
    | some o => exact stepArg_ok_ident
  | basicLit v =>
    obtain ⟨⟨r, s'⟩, hc⟩ := constlit_ok_of_wf pp (sizeOf (Expr.basicLit v)) _ le_rfl (by simpa [wfArg] using hwf) [] ⟨[], []⟩
    cases r with
    | true => exact ⟨_, by simp only [stepArg]; rw [hc]⟩
    | false => exact ⟨_, by simp only [stepArg]; rw [hc]⟩
  | binary x y =>
    obtain ⟨⟨r, s'⟩, hc⟩ := constlit_ok_of_wf pp (sizeOf (Expr.binary x y)) _ le_rfl (by simpa [wfArg] using hwf) [] ⟨[], []⟩
    cases r with
    | true => exact ⟨_, by simp only [stepArg]; rw [hc]⟩
    | false => exact ⟨_, by simp only [stepArg]; rw [hc]⟩
  | keyValue x y =>
    obtain ⟨⟨r, s'⟩, hc⟩ := constlit_ok_of_wf pp (sizeOf (Expr.keyValue x y)) _ le_rfl (by simpa [wfArg] using hwf) [] ⟨[], []⟩
    cases r with
    | true => exact ⟨_, by simp only [stepArg]; rw [hc]⟩
    | false => exact ⟨_, by simp only [stepArg]; rw [hc]⟩
  | paren x =>
    obtain ⟨⟨r, s'⟩, hc⟩ := constlit_ok_of_wf pp (sizeOf (Expr.paren x)) _ le_rfl (by simpa [wfArg] using hwf) [] ⟨[], []⟩
    cases r with
    | true => exact ⟨_, by simp only [stepArg]; rw [hc]⟩
    | false => exact ⟨_, by simp only [stepArg]; rw [hc]⟩
  | slice x lo hi mx =>
    obtain ⟨⟨r, s'⟩, hc⟩ :=
      constlit_ok_of_wf pp (sizeOf (Expr.slice x lo hi mx)) _ le_rfl (by simpa [wfArg] using hwf) [] ⟨[], []⟩
    cases r with
    | true => exact ⟨_, by simp only [stepArg]; rw [hc]⟩
    | false => exact ⟨_, by simp only [stepArg]; rw [hc]⟩
  | star x =>
    obtain ⟨⟨r, s'⟩, hc⟩ := constlit_ok_of_wf pp (sizeOf (Expr.star x)) _ le_rfl (by simpa [wfArg] using hwf) [] ⟨[], []⟩
    cases r with
    | true => exact ⟨_, by simp only [stepArg]; rw [hc]⟩
    | false => exact ⟨_, by simp only [stepArg]; rw [hc]⟩
  | typeAssert x =>
    obtain ⟨⟨r, s'⟩, hc⟩ :=
      constlit_ok_of_wf pp (sizeOf (Expr.typeAssert x)) _ le_rfl (by simpa [wfArg] using hwf) [] ⟨[], []⟩
    cases r with
    | true => exact ⟨_, by simp only [stepArg]; rw [hc]⟩
    | false => exact ⟨_, by simp only [stepArg]; rw [hc]⟩
  | unary x =>
    obtain ⟨⟨r, s'⟩, hc⟩ := constlit_ok_of_wf pp (sizeOf (Expr.unary x)) _ le_rfl (by simpa [wfArg] using hwf) [] ⟨[], []⟩
    cases r with
    | true => exact ⟨_, by simp only [stepArg]; rw [hc]⟩
    | false => exact ⟨_, by simp only [stepArg]; rw [hc]⟩
  | selector x nm so sel =>
    obtain ⟨⟨r, s'⟩, hc⟩ :=
      constlit_ok_of_wf pp (sizeOf (Expr.selector x nm so sel)) _ le_rfl (by simpa [wfArg] using hwf) [] ⟨[], []⟩
    cases r with
    | true => exact ⟨_, by simp only [stepArg]; rw [hc]⟩
    | false => exact ⟨_, by simp only [stepArg]; rw [hc]⟩
  | call fn2 args =>
    obtain ⟨⟨r, s'⟩, hc⟩ :=
      constlit_ok_of_wf pp (sizeOf (Expr.call fn2 args)) _ le_rfl (by simpa [wfArg] using hwf) [] ⟨[], []⟩
    cases r with
    | true => exact ⟨_, by simp only [stepArg]; rw [hc]⟩
    | false => exact ⟨_, by simp only [stepArg]; rw [hc]⟩
  | index x k =>
    obtain ⟨⟨r, s'⟩, hc⟩ := constlit_ok_of_wf pp (sizeOf (Expr.index x k)) _ le_rfl (by simpa [wfArg] using hwf) [] ⟨[], []⟩
    cases r with
    | true => exact ⟨_, by simp only [stepArg]; rw [hc]⟩
    | false => exact ⟨_, by simp only [stepArg]; rw [hc]⟩
  | funcLit =>
    obtain ⟨⟨r, s'⟩, hc⟩ := constlit_ok_of_wf pp (sizeOf Expr.funcLit) _ le_rfl (by simpa [wfArg] using hwf) [] ⟨[], []⟩
    cases r with
    | true => exact ⟨_, by simp only [stepArg]; rw [hc]⟩
    | false => exact ⟨_, by simp only [stepArg]; rw [hc]⟩
  | arrayType =>
    obtain ⟨⟨r, s'⟩, hc⟩ := constlit_ok_of_wf pp (sizeOf Expr.arrayType) _ le_rfl (by simpa [wfArg] using hwf) [] ⟨[], []⟩
    cases r with
    | true => exact ⟨_, by simp only [stepArg]; rw [hc]⟩
    | false => exact ⟨_, by simp only [stepArg]; rw [hc]⟩
  | interfaceType =>
    obtain ⟨⟨r, s'⟩, hc⟩ :=
      constlit_ok_of_wf pp (sizeOf Expr.interfaceType) _ le_rfl (by simpa [wfArg] using hwf) [] ⟨[], []⟩
    cases r with
    | true => exact ⟨_, by simp only [stepArg]; rw [hc]⟩
    | false => exact ⟨_, by simp only [stepArg]; rw [hc]⟩
  | mapType =>
    obtain ⟨⟨r, s'⟩, hc⟩ := constlit_ok_of_wf pp (sizeOf Expr.mapType) _ le_rfl (by simpa [wfArg] using hwf) [] ⟨[], []⟩
    cases r with
    | true => exact ⟨_, by simp only [stepArg]; rw [hc]⟩
    | false => exact ⟨_, by simp only [stepArg]; rw [hc]⟩
  | chanType =>
    obtain ⟨⟨r, s'⟩, hc⟩ := constlit_ok_of_wf pp (sizeOf Expr.chanType) _ le_rfl (by simpa [wfArg] using hwf) [] ⟨[], []⟩
    cases r with
    | true => exact ⟨_, by simp only [stepArg]; rw [hc]⟩
    | false => exact ⟨_, by simp only [stepArg]; rw [hc]⟩
  | structType =>
    obtain ⟨⟨r, s'⟩, hc⟩ := constlit_ok_of_wf pp (sizeOf Expr.structType) _ le_rfl (by simpa [wfArg] using hwf) [] ⟨[], []⟩
    cases r with
    | true => exact ⟨_, by simp only [stepArg]; rw [hc]⟩
    | false => exact ⟨_, by simp only [stepArg]; rw [hc]⟩
  | other kind =>
    obtain ⟨⟨r, s'⟩, hc⟩ := constlit_ok_of_wf pp (sizeOf (Expr.other kind)) _ le_rfl (by simpa [wfArg] using hwf) [] ⟨[], []⟩
    cases r with
    | true => exact ⟨_, by simp only [stepArg]; rw [hc]⟩
    | false => exact ⟨_, by simp only [stepArg]; rw [hc]⟩

theorem stepCallChecked_ok_of_wf {cfg : Config} {pp : Expr → String} {pts : Passthru}
    {fn : Expr} {args : List Expr} {checkarg : Int}
    (hwf : wfCallArg args checkarg = true) :
    ∃ dw, stepCallChecked cfg pp pts fn args checkarg = .ok dw := by
  simp only [stepCallChecked]
  by_cases h1 : checkarg < 0
  · exact ⟨_, by rw [if_pos h1]⟩
  · simp only [wfCallArg, if_neg h1] at hwf
    by_cases h2 : cfg.suppressNoArgs ∧ (args.length : Int) - 1 > checkarg
    · exact ⟨_, by rw [if_neg h1, if_pos h2]⟩
    · cases hg : args[checkarg.toNat]? with
      | none => rw [hg] at hwf; simp at hwf
      | some arg =>
        rw [hg] at hwf
        obtain ⟨dw, hdw⟩ := @stepArg_ok_of_wf pp pts fn arg (by simpa using hwf)
        exact ⟨dw, by rw [if_neg h1, if_neg h2]; exact hdw⟩

theorem step_ok_of_wf {cfg : Config} {pp : Expr → String} {pts : Passthru} {e : Event}
    (hwf : wfEvent e = true) : ∃ v, step cfg pp pts e = .ok v := by
  cases e with
  | funcDecl nameObj params => exact ⟨_, rfl⟩
  | assign lhs => exact ⟨_, rfl⟩
  | call fn args =>
    have hcall : ∃ dw, stepCall cfg pp pts fn args = .ok dw := by
      cases fn with
      | ident nm o =>
        simp only [wfEvent] at hwf
        exact stepCallChecked_ok_of_wf hwf
      | selector x nm so sel =>
        simp only [wfEvent] at hwf
        cases hso : selobj so sel with
        | error p => rw [hso] at hwf; simp at hwf
        | ok o =>
          rw [hso] at hwf
          dsimp only at hwf
          obtain ⟨dw, hdw⟩ := @stepCallChecked_ok_of_wf cfg pp pts
            (.selector x nm so sel) args (fmtarg (some o)) hwf
          exact ⟨dw, by simp only [stepCall]; rw [hso]; exact hdw⟩
      | call fn2 args2 => exact ⟨_, rfl⟩
      | typeAssert x => exact ⟨_, rfl⟩
      | paren x => exact ⟨_, rfl⟩
      | index x k => exact ⟨_, rfl⟩
      | funcLit => exact ⟨_, rfl⟩
      | arrayType => exact ⟨_, rfl⟩
      | interfaceType => exact ⟨_, rfl⟩
      | mapType => exact ⟨_, rfl⟩
      | chanType => exact ⟨_, rfl⟩
      | structType => exact ⟨_, rfl⟩
      | basicLit v => exact ⟨_, rfl⟩
      | binary x y => exact ⟨_, rfl⟩
      | keyValue x y => exact ⟨_, rfl⟩
      | slice x lo hi mx => exact ⟨_, rfl⟩
      | star x => exact ⟨_, rfl⟩
      | unary x => exact ⟨_, rfl⟩
      | other kind => exact ⟨_, rfl⟩
    obtain ⟨⟨ds, ws⟩, hdw⟩ := hcall
    exact ⟨(pts, ds, ws), by simp only [step]; rw [hdw]⟩

theorem runEvents_ok_of_wf {cfg : Config} {pp : Expr → String} :
    ∀ (l : List Event) (pts : Passthru), (∀ e ∈ l, wfEvent e = true) →
      ∃ v, runEvents cfg pp l pts = .ok v := by
  intro l
  induction l with
  | nil => intro pts _; exact ⟨_, rfl⟩
  | cons e rest ih =>
    intro pts hwf
    obtain ⟨⟨pts1, ds, ws⟩, hs⟩ :=
      @step_ok_of_wf cfg pp pts e (hwf e (List.mem_cons_self _ _))
    obtain ⟨⟨pts2, dss, wss⟩, hr⟩ := ih pts1 (fun e2 hm => hwf e2 (List.mem_cons_of_mem _ hm))
    exact ⟨(pts2, ds :: dss, ws ++ wss), by
      simp only [runEvents]
      rw [hs]
      dsimp only
      rw [hr]⟩


/-- Grammar of expressions built only from text literals, references to
declared-constant symbols (as identifiers or member accesses), and
single-argument named-type conversions whose argument is itself such an
expression (the antecedent of C7 and spec section 8, first property). -/
inductive ConstBuilt : Expr → Prop where
  | lit (s : String) : ConstBuilt (.basicLit s)
  | cident (nm : String) (o : Obj) : o.kind = .constK → ConstBuilt (.ident nm (some o))
  | csel (x : Expr) (nm : String) (so sel : Option Obj) (o : Obj) :
      selobj so sel = .ok o → o.kind = .constK → ConstBuilt (.selector x nm so sel)
  | conv (fn a : Expr) : typeexpr fn = true → ConstBuilt a → ConstBuilt (.call fn [a])

theorem constlit_constBuilt {e : Expr} (h : ConstBuilt e) :
    ∀ (pp : Expr → String) (path : Path) (s : CState),
      constlit pp e path s = .ok (true, s) := by
  induction h with
  | lit str =>
    intro pp path s
    simp only [constlit]
  | cident nm o hk =>
    intro pp path s
    have hc : constobj (some o) = true := by simp [constobj, hk]
    simp only [constlit]
    rw [if_pos hc]
  | csel x nm so sel o hso hk =>
    intro pp path s
    have hc : constobj (some o) = true := by simp [constobj, hk]
    simp only [constlit]
    rw [hso]
    dsimp only
    rw [if_pos hc]
  | conv fn a ht hcb ih =>
    intro pp path s
    simp only [constlit]
    rw [typeexprWarn_of_typeexpr pp ht, if_pos ht]
    simp only [List.append_nil]
    rw [ih pp (path ++ [0]) s]

/-- The expression has a non-constant leaf — an identifier or member
access not resolving to a declared constant — at a position `constlit`
actually evaluates: not nested inside an indexing expression, and for a
call argument only in the single-argument position that a conversion
would inspect (the antecedent of C8 and spec section 8, second
property). -/
inductive HasBadLeaf : Expr → Prop where
  | identL (nm : String) (obj : Option Obj) :
      constobj obj = false → HasBadLeaf (.ident nm obj)
  | selL (x : Expr) (nm : String) (so sel : Option Obj) (o : Obj) :
      selobj so sel = .ok o → constobj (some o) = false →
      HasBadLeaf (.selector x nm so sel)
  | binaryL (x y : Expr) : HasBadLeaf x → HasBadLeaf (.binary x y)
  | binaryR (x y : Expr) : HasBadLeaf y → HasBadLeaf (.binary x y)
  | keyValueL (x y : Expr) : HasBadLeaf x → HasBadLeaf (.keyValue x y)
  | keyValueR (x y : Expr) : HasBadLeaf y → HasBadLeaf (.keyValue x y)
  | parenL (x : Expr) : HasBadLeaf x → HasBadLeaf (.paren x)
  | starL (x : Expr) : HasBadLeaf x → HasBadLeaf (.star x)
  | typeAssertL (x : Expr) : HasBadLeaf x → HasBadLeaf (.typeAssert x)
  | unaryL (x : Expr) : HasBadLeaf x → HasBadLeaf (.unary x)
  | sliceX (x : Expr) (lo hi mx : Option Expr) :
      HasBadLeaf x → HasBadLeaf (.slice x lo hi mx)
  | sliceLo (x l : Expr) (hi mx : Option Expr) :
      HasBadLeaf l → HasBadLeaf (.slice x (some l) hi mx)
  | sliceHi (x l : Expr) (lo mx : Option Expr) :
      HasBadLeaf l → HasBadLeaf (.slice x lo (some l) mx)
  | sliceMx (x l : Expr) (lo hi : Option Expr) :
      HasBadLeaf l → HasBadLeaf (.slice x lo hi (some l))
  | callA (fn : Expr) (args : List Expr) (a : Expr) :
      a ∈ args → HasBadLeaf a → HasBadLeaf (.call fn args)

theorem combine_false {pa : Path} {pe : Expr} {rs : List (Path × Bool)} {s : CState}
    (h : (rs.any fun r => !r.2) = true) : ∃ sc, combine pa pe rs s = (false, sc) := by
  have hall : (rs.all fun r => r.2) = false := by
    cases hv : rs.all fun r => r.2 with
    | false => rfl
    | true =>
      simp only [List.any_eq_true] at h
      obtain ⟨x, hm, hx⟩ := h
      rw [List.all_eq_true] at hv
      have := hv x hm
      rw [this] at hx
      simp at hx
  dsimp only [combine]
  by_cases hab : (rs.all fun r => !r.2) = true
  · rw [if_pos hab, hall]
    exact ⟨_, rfl⟩
  · rw [if_neg hab, hall]
    exact ⟨_, rfl⟩

theorem hasBadLeaf_false {e : Expr} (h : HasBadLeaf e) :
    wfE e = true → ∀ (pp : Expr → String) (path : Path) (s : CState),
      ∃ s', constlit pp e path s = .ok (false, s') := by
  induction h with
  | identL nm obj hc =>
    intro _ pp path s
    have hnc : ¬ (constobj obj = true) := by simp [hc]
    exact ⟨_, by simp only [constlit]; rw [if_neg hnc]⟩
  | selL x nm so sel o hso hc =>
    intro _ pp path s
    have hnc : ¬ (constobj (some o) = true) := by simp [hc]
    exact ⟨_, by simp only [constlit]; rw [hso]; dsimp only; rw [if_neg hnc]⟩
  | binaryL x y hx ih =>
    intro hwf pp path s
    simp only [wfE, Bool.and_eq_true] at hwf
    obtain ⟨s0, h0⟩ := ih hwf.1 pp (path ++ [0]) s
    obtain ⟨⟨r1, s1⟩, h1⟩ := constlit_ok_of_wf pp (sizeOf y) y le_rfl hwf.2 (path ++ [1]) s0
    obtain ⟨sc, hcm⟩ := @combine_false path (.binary x y) ([(path ++ [0], false), (path ++ [1], r1)])
      (s1) (by simp)
    exact ⟨sc, by
      simp only [constlit]
      rw [h0]
      dsimp only
      rw [h1]
      dsimp only
      rw [hcm]⟩
  | binaryR x y hy ih =>
    intro hwf pp path s
    simp only [wfE, Bool.and_eq_true] at hwf
    obtain ⟨⟨r0, s0⟩, h0⟩ := constlit_ok_of_wf pp (sizeOf x) x le_rfl hwf.1 (path ++ [0]) s
    obtain ⟨s1, h1⟩ := ih hwf.2 pp (path ++ [1]) s0
    obtain ⟨sc, hcm⟩ := @combine_false path (.binary x y) ([(path ++ [0], r0), (path ++ [1], false)])
      (s1) (by simp)
    exact ⟨sc, by
      simp only [constlit]
      rw [h0]
      dsimp only
      rw [h1]
      dsimp only
      rw [hcm]⟩
  | keyValueL x y hx ih =>
    intro hwf pp path s
    simp only [wfE, Bool.and_eq_true] at hwf
    obtain ⟨s0, h0⟩ := ih hwf.1 pp (path ++ [0]) s
    obtain ⟨⟨r1, s1⟩, h1⟩ := constlit_ok_of_wf pp (sizeOf y) y le_rfl hwf.2 (path ++ [1]) s0
    obtain ⟨sc, hcm⟩ := @combine_false path (.keyValue x y) ([(path ++ [0], false), (path ++ [1], r1)])
      (s1) (by simp)
    exact ⟨sc, by
      simp only [constlit]
      rw [h0]
      dsimp only
      rw [h1]
      dsimp only
      rw [hcm]⟩
  | keyValueR x y hy ih =>
    intro hwf pp path s
    simp only [wfE, Bool.and_eq_true] at hwf
    obtain ⟨⟨r0, s0⟩, h0⟩ := constlit_ok_of_wf pp (sizeOf x) x le_rfl hwf.1 (path ++ [0]) s
    obtain ⟨s1, h1⟩ := ih hwf.2 pp (path ++ [1]) s0
    obtain ⟨sc, hcm⟩ := @combine_false path (.keyValue x y) ([(path ++ [0], r0), (path ++ [1], false)])
      (s1) (by simp)
    exact ⟨sc, by
      simp only [constlit]
      rw [h0]
      dsimp only
      rw [h1]
      dsimp only
      rw [hcm]⟩
  | parenL x hx ih =>
    intro hwf pp path s
    simp only [wfE] at hwf
    obtain ⟨s0, h0⟩ := ih hwf pp (path ++ [0]) s
    obtain ⟨sc, hcm⟩ := @combine_false path (.paren x) ([(path ++ [0], false)])
      (s0) (by simp)
    exact ⟨sc, by
      simp only [constlit]
      rw [h0]
      dsimp only
      rw [hcm]⟩
  | starL x hx ih =>
    intro hwf pp path s
    simp only [wfE] at hwf
    obtain ⟨s0, h0⟩ := ih hwf pp (path ++ [0]) s
    obtain ⟨sc, hcm⟩ := @combine_false path (.star x) ([(path ++ [0], false)])
      (s0) (by simp)
    exact ⟨sc, by
      simp only [constlit]
      rw [h0]
      dsimp only
      rw [hcm]⟩
  | typeAssertL x hx ih =>
    intro hwf pp path s
    simp only [wfE] at hwf
    obtain ⟨s0, h0⟩ := ih hwf pp (path ++ [0]) s
    obtain ⟨sc, hcm⟩ := @combine_false path (.typeAssert x) ([(path ++ [0], false)])
      (s0) (by simp)
    exact ⟨sc, by
      simp only [constlit]
      rw [h0]
      dsimp only
      rw [hcm]⟩
  | unaryL x hx ih =>
    intro hwf pp path s
    simp only [wfE] at hwf
    obtain ⟨s0, h0⟩ := ih hwf pp (path ++ [0]) s
    obtain ⟨sc, hcm⟩ := @combine_false path (.unary x) ([(path ++ [0], false)])
      (s0) (by simp)
    exact ⟨sc, by
      simp only [constlit]
      rw [h0]
      dsimp only
      rw [hcm]⟩
  | sliceX x lo hi mx hx ih =>
    intro hwf pp path s
    simp only [wfE, Bool.and_eq_true] at hwf
    obtain ⟨⟨⟨hwx, hwlo⟩, hwhi⟩, hwmx⟩ := hwf
    obtain ⟨s0, h0⟩ := ih hwx pp (path ++ [0]) s
    obtain ⟨⟨rs1, s1⟩, h1⟩ := constlitOpt_ok_aux pp lo (path ++ [1]) s0
      (fun e he => constlit_ok_of_wf pp (sizeOf e) e le_rfl (by
        subst he; simpa only [wfOpt] using hwlo))
    obtain ⟨⟨rs2, s2⟩, h2⟩ := constlitOpt_ok_aux pp hi (path ++ [2]) s1
      (fun e he => constlit_ok_of_wf pp (sizeOf e) e le_rfl (by
        subst he; simpa only [wfOpt] using hwhi))
    obtain ⟨⟨rs3, s3⟩, h3⟩ := constlitOpt_ok_aux pp mx (path ++ [3]) s2
      (fun e he => constlit_ok_of_wf pp (sizeOf e) e le_rfl (by
        subst he; simpa only [wfOpt] using hwmx))
    obtain ⟨sc, hcm⟩ := @combine_false path (.slice x lo hi mx) ((path ++ [0], false) :: (rs1 ++ rs2 ++ rs3))
      (s3) (by simp)
    exact ⟨sc, by
      simp only [constlit]
      rw [h0]
      dsimp only
      rw [h1]
      dsimp only
      rw [h2]
      dsimp only
      rw [h3]
      dsimp only
      rw [hcm]⟩
  | sliceLo x l hi mx hl ih =>
    intro hwf pp path s
    simp only [wfE, Bool.and_eq_true] at hwf
    obtain ⟨⟨⟨hwx, hwlo⟩, hwhi⟩, hwmx⟩ := hwf
    obtain ⟨⟨r0, s0⟩, h0⟩ := constlit_ok_of_wf pp (sizeOf x) x le_rfl hwx (path ++ [0]) s
    have hwl : wfE l = true := by simpa only [wfOpt] using hwlo
    obtain ⟨s1, h1⟩ := ih hwl pp (path ++ [1]) s0
    have h1' : constlitOpt pp (some l) (path ++ [1]) s0 = .ok ([(path ++ [1], false)], s1) := by
      simp only [constlitOpt]
      rw [h1]
    obtain ⟨⟨rs2, s2⟩, h2⟩ := constlitOpt_ok_aux pp hi (path ++ [2]) s1
      (fun e he => constlit_ok_of_wf pp (sizeOf e) e le_rfl (by
        subst he; simpa only [wfOpt] using hwhi))
    obtain ⟨⟨rs3, s3⟩, h3⟩ := constlitOpt_ok_aux pp mx (path ++ [3]) s2
      (fun e he => constlit_ok_of_wf pp (sizeOf e) e le_rfl (by
        subst he; simpa only [wfOpt] using hwmx))
    obtain ⟨sc, hcm⟩ := @combine_false path (.slice x (some l) hi mx) ((path ++ [0], r0) :: ([(path ++ [1], false)] ++ rs2 ++ rs3))
      (s3) (by simp)
    exact ⟨sc, by
      simp only [constlit]
      rw [h0]
      dsimp only
      rw [h1']
      dsimp only
      rw [h2]
      dsimp only
      rw [h3]
      dsimp only
      rw [hcm]⟩
  | sliceHi x l lo mx hl ih =>
    intro hwf pp path s
    simp only [wfE, Bool.and_eq_true] at hwf
    obtain ⟨⟨⟨hwx, hwlo⟩, hwhi⟩, hwmx⟩ := hwf
    obtain ⟨⟨r0, s0⟩, h0⟩ := constlit_ok_of_wf pp (sizeOf x) x le_rfl hwx (path ++ [0]) s
    obtain ⟨⟨rs1, s1⟩, h1⟩ := constlitOpt_ok_aux pp lo (path ++ [1]) s0
      (fun e he => constlit_ok_of_wf pp (sizeOf e) e le_rfl (by
        subst he; simpa only [wfOpt] using hwlo))
    have hwl : wfE l = true := by simpa only [wfOpt] using hwhi
    obtain ⟨s2, h2⟩ := ih hwl pp (path ++ [2]) s1
    have h2' : constlitOpt pp (some l) (path ++ [2]) s1 = .ok ([(path ++ [2], false)], s2) := by
      simp only [constlitOpt]
      rw [h2]
    obtain ⟨⟨rs3, s3⟩, h3⟩ := constlitOpt_ok_aux pp mx (path ++ [3]) s2
      (fun e he => constlit_ok_of_wf pp (sizeOf e) e le_rfl (by
        subst he; simpa only [wfOpt] using hwmx))
    obtain ⟨sc, hcm⟩ := @combine_false path (.slice x lo (some l) mx) ((path ++ [0], r0) :: (rs1 ++ [(path ++ [2], false)] ++ rs3))
      (s3) (by simp)
    exact ⟨sc, by
      simp only [constlit]
      rw [h0]
      dsimp only
      rw [h1]
      dsimp only
      rw [h2']
      dsimp only
      rw [h3]
      dsimp only
      rw [hcm]⟩
  | sliceMx x l lo hi hl ih =>
    intro hwf pp path s
    simp only [wfE, Bool.and_eq_true] at hwf
    obtain ⟨⟨⟨hwx, hwlo⟩, hwhi⟩, hwmx⟩ := hwf
    obtain ⟨⟨r0, s0⟩, h0⟩ := constlit_ok_of_wf pp (sizeOf x) x le_rfl hwx (path ++ [0]) s
    obtain ⟨⟨rs1, s1⟩, h1⟩ := constlitOpt_ok_aux pp lo (path ++ [1]) s0
      (fun e he => constlit_ok_of_wf pp (sizeOf e) e le_rfl (by
        subst he; simpa only [wfOpt] using hwlo))
    obtain ⟨⟨rs2, s2⟩, h2⟩ := constlitOpt_ok_aux pp hi (path ++ [2]) s1
      (fun e he => constlit_ok_of_wf pp (sizeOf e) e le_rfl (by
        subst he; simpa only [wfOpt] using hwhi))
    have hwl : wfE l = true := by simpa only [wfOpt] using hwmx
    obtain ⟨s3, h3⟩ := ih hwl pp (path ++ [3]) s2
    have h3' : constlitOpt pp (some l) (path ++ [3]) s2 = .ok ([(path ++ [3], false)], s3) := by
      simp only [constlitOpt]
      rw [h3]
    obtain ⟨sc, hcm⟩ := @combine_false path (.slice x lo hi (some l)) ((path ++ [0], r0) :: (rs1 ++ rs2 ++ [(path ++ [3], false)]))
      (s3) (by simp)
    exact ⟨sc, by
      simp only [constlit]
      rw [h0]
      dsimp only
      rw [h1]
      dsimp only
      rw [h2]
      dsimp only
      rw [h3']
      dsimp only
      rw [hcm]⟩
  | callA fn args a hm hbl ih =>
    intro hwf pp path s
    cases args with
    | nil => simp at hm
    | cons a1 rest =>
      cases rest with
      | cons b rest2 => exact ⟨_, by simp only [constlit]; rfl⟩
      | nil =>
        have ha : a = a1 := by simpa using hm
        subst ha
        have hwa : wfE a = true := by simpa only [wfE] using hwf
        by_cases ht : typeexpr fn = true
        · obtain ⟨s2, h2⟩ := ih hwa pp (path ++ [0])
            { s with warns := s.warns ++ typeexprWarn pp fn }
          exact ⟨_, by
            simp only [constlit]
            rw [if_pos ht]
            rw [h2]⟩
        · exact ⟨_, by
            simp only [constlit]
            rw [if_neg ht]⟩


theorem nthNameNames_none {nth : Int} :
    ∀ (names : List Id) (i : Int), (nth < i ∨ i + names.length ≤ nth) →
      nthNameNames nth i names = (none, i + names.length) := by
  intro names
  induction names with
  | nil =>
    intro i _
    simp [nthNameNames]
  | cons n rest ih =>
    intro i hr
    have hne : ¬ (i == nth) = true := by
      simp only [beq_iff_eq]
      intro hc
      subst hc
      rcases hr with h1 | h2
      · omega
      · simp only [List.length_cons] at h2
        push_cast at h2
        omega
    simp only [nthNameNames, if_neg hne]
    have hr' : nth < i + 1 ∨ (i + 1) + rest.length ≤ nth := by
      rcases hr with h1 | h2
      · exact Or.inl (by omega)
      · refine Or.inr ?_
        simp only [List.length_cons] at h2
        push_cast at h2 ⊢
        omega
    rw [ih (i + 1) hr']
    simp only [List.length_cons, Prod.mk.injEq, true_and]
    push_cast
    omega

theorem nthNameFields_none {nth : Int} :
    ∀ (flds : List Field) (i : Int), (nth < i ∨ i + countNames flds ≤ nth) →
      nthNameFields nth i flds = none := by
  intro flds
  induction flds with
  | nil => intro i _; simp [nthNameFields]
  | cons fld rest ih =>
    intro i hr
    have hcc : countNames (fld :: rest) = fld.names.length + countNames rest := by
      simp [countNames]
    have hn : nthNameNames nth i fld.names = (none, i + fld.names.length) := by
      apply nthNameNames_none
      rcases hr with h1 | h2
      · exact Or.inl h1
      · refine Or.inr ?_
        rw [hcc] at h2
        push_cast at h2
        omega
    simp only [nthNameFields, hn]
    apply ih
    rcases hr with h1 | h2
    · exact Or.inl (by omega)
    · refine Or.inr ?_
      rw [hcc] at h2
      push_cast at h2
      omega

/-- Out-of-range or unnamed format-parameter position: `nthName` yields
no identifier. -/
theorem nthName_none {flds : List Field} {nth : Int}
    (h : nth < 0 ∨ (countNames flds : Int) ≤ nth) : nthName flds nth = none := by
  unfold nthName
  apply nthNameFields_none
  rcases h with h1 | h2
  · exact Or.inl (by omega)
  · exact Or.inr (by omega)


/-- Constant renderer used to instantiate the injected pretty printer in
concrete scenarios; the analyzer itself is parametric in the renderer. -/
def ppc : Expr → String := fun _ => "e"

/-- A printf-classified function object shaped like `fmt.Sprintf`
(`KindPrintf`, two parameters, so format index 0). -/
def sprintfObj : Obj := ⟨1, .funcK .printfK 2⟩

/-- A plain package-level variable object. -/
def v1Obj : Obj := ⟨2, .varK⟩

/-- A declared-constant object. -/
def c1Obj : Obj := ⟨3, .constK⟩

/-- A printf-classified wrapper function object (`KindPrintf`, signature
`(format string, args ...interface{})`). -/
def wrapObj : Obj := ⟨4, .funcK .printfK 2⟩

/-- The wrapper's `format` parameter object. -/
def formatObj : Obj := ⟨5, .varK⟩

/-- The wrapper's `args` parameter object. -/
def argsObj : Obj := ⟨6, .varK⟩

theorem containsBad_insertBad_self (b : BadSet) (p : Path) (x : Expr) :
    containsBad (insertBad b p x) p = true := by
  unfold insertBad
  split
  · assumption
  · simp [containsBad]

theorem containsBad_insertBad_of_ne {p q : Path} (b : BadSet) (x : Expr) (h : q ≠ p) :
    containsBad (insertBad b p x) q = containsBad b q := by
  unfold insertBad
  split
  · rfl
  · simp [containsBad, List.any_append]
    intro hc
    exact absurd hc.symm h

theorem containsBad_eraseBad_self (b : BadSet) (p : Path) :
    containsBad (eraseBad b p) p = false := by
  rw [Bool.eq_false_iff]
  intro hc
  simp only [containsBad, eraseBad, List.any_eq_true, List.mem_filter] at hc
  obtain ⟨x, ⟨_, hx⟩, he⟩ := hc
  rw [he] at hx
  simp at hx

theorem containsBad_eraseBad_of_not {b : BadSet} {q : Path} (p : Path)
    (h : containsBad b q = false) : containsBad (eraseBad b p) q = false := by
  rw [Bool.eq_false_iff]
  intro hc
  rw [Bool.eq_false_iff] at h
  apply h
  simp only [containsBad, eraseBad, List.any_eq_true, List.mem_filter] at hc ⊢
  obtain ⟨x, ⟨hm, _⟩, he⟩ := hc
  exact ⟨x, hm, he⟩

theorem mem_insertBad_of_mem {b : BadSet} {q : Path × Expr} (p : Path) (x : Expr)
    (h : q ∈ b) : q ∈ insertBad b p x := by
  unfold insertBad
  split
  · exact h
  · simp [h]

theorem mem_eraseBad_of_mem {b : BadSet} {q : Path × Expr} (p : Path)
    (h : q ∈ b) (hne : q.1 ≠ p) : q ∈ eraseBad b p := by
  simp only [eraseBad, List.mem_filter, h, true_and]
  simpa using hne

theorem eraseFold_of_not {rs : List (Path × Bool)} :
    ∀ (b : BadSet) (q : Path), containsBad b q = false →
      containsBad (rs.foldl (fun acc r => eraseBad acc r.1) b) q = false := by
  induction rs with
  | nil => intro b q h; simpa using h
  | cons r0 rest ih =>
    intro b q h
    simp only [List.foldl_cons]
    exact ih _ q (containsBad_eraseBad_of_not r0.1 h)

theorem eraseFold_not_contains {rs : List (Path × Bool)} :
    ∀ (b : BadSet) (r : Path × Bool), r ∈ rs →
      containsBad (rs.foldl (fun acc r => eraseBad acc r.1) b) r.1 = false := by
  induction rs with
  | nil => intro b r h; simp at h
  | cons r0 rest ih =>
    intro b r h
    simp only [List.foldl_cons]
    rcases List.mem_cons.mp h with he | hm
    · subst he
      exact eraseFold_of_not _ _ (containsBad_eraseBad_self b r.1)
    · exact ih _ r hm

theorem eraseFold_mem {rs : List (Path × Bool)} :
    ∀ (b : BadSet) (q : Path × Expr), q ∈ b → (∀ r ∈ rs, q.1 ≠ r.1) →
      q ∈ rs.foldl (fun acc r => eraseBad acc r.1) b := by
  induction rs with
  | nil => intro b q h _; simpa using h
  | cons r0 rest ih =>
    intro b q h hne
    simp only [List.foldl_cons]
    exact ih _ q (mem_eraseBad_of_mem r0.1 h (hne r0 (List.mem_cons_self _ _)))
      (fun r hr => hne r (List.mem_cons_of_mem _ hr))



/-- A second printf-classified wrapper function object. -/
def wrap2Obj : Obj := ⟨7, .funcK .printfK 2⟩

/-- The second wrapper's `format` parameter object. -/
def format2Obj : Obj := ⟨8, .varK⟩

/-- The second wrapper's `args` parameter object. -/
def args2Obj : Obj := ⟨9, .varK⟩

/-- Parameter field list of the first wrapper:
`(format string, args ...interface{})`. -/
def wrapParams : List Field := [⟨[⟨"format", some formatObj⟩]⟩, ⟨[⟨"args", some argsObj⟩]⟩]

/-- Parameter field list of the second wrapper. -/
def wrap2Params : List Field := [⟨[⟨"format", some format2Obj⟩]⟩, ⟨[⟨"args", some args2Obj⟩]⟩]

/-- C4: for every indexing expression `container[key]`, whatever the
provenance of `container` and `key`, `constlit` judges it non-constant
and the only culprit recorded for that subtree is the whole indexing
expression: the operands are not even evaluated and contribute
nothing. -/
theorem indexExpr_always_nonconstant (pp : Expr → String) (c k : Expr) (path : Path)
    (s : CState) :
    constlit pp (.index c k) path s
      = .ok (false, { s with bad := insertBad s.bad path (.index c k) }) := by
  simp only [constlit]

/-- The parenthesized mixed concatenation `(v1 + c1)` from the
repository's own test data. -/
def exprC2 : Expr := .paren (.binary (.ident "v1" (some v1Obj)) (.ident "c1" (some c1Obj)))

/-- C2 counterexample: for `(v1 + c1)` the paren's single immediate
operand is judged non-constant, yet after evaluation the culprit set
holds two nodes — the deeper culprit `v1` recorded while evaluating the
operand survives alongside the parent — so the set does not contain
exactly the parent node. -/
theorem c2_counterexample :
    constlit ppc exprC2 [] ⟨[], []⟩
      = .ok (false, ⟨[([0, 0], .ident "v1" (some v1Obj)), ([], exprC2)], []⟩) ∧
    ([([0, 0], Expr.ident "v1" (some v1Obj)), ([], exprC2)] : BadSet).length ≠ 1 := by
  constructor
  · simp [constlit, combine, insertBad, containsBad, eraseBad, constobj, v1Obj, c1Obj, exprC2]
  · simp

/-- C2 (amended): when every immediate operand of a composite expression
is judged non-constant, `combine` returns a non-constant verdict and a
culprit set in which the parent node is recorded, every immediate
operand's own entry is discarded, and any other entry — in particular a
culprit recorded for a deeper descendant during the operands'
evaluation — is retained. -/
theorem combine_allbad_culprits (parentPath : Path) (parent : Expr)
    (results : List (Path × Bool)) (s : CState)
    (hne : results ≠ []) (hbad : ∀ r ∈ results, r.2 = false)
    (hpp : ∀ r ∈ results, r.1 ≠ parentPath) :
    combine parentPath parent results s
      = (false,
        { s with
            bad := insertBad (results.foldl (fun b r => eraseBad b r.1) s.bad) parentPath parent }) ∧
    containsBad (insertBad (results.foldl (fun b r => eraseBad b r.1) s.bad) parentPath parent)
        parentPath = true ∧
    (∀ r ∈ results,
      containsBad (insertBad (results.foldl (fun b r => eraseBad b r.1) s.bad) parentPath parent)
        r.1 = false) ∧
    (∀ q ∈ s.bad, (∀ r ∈ results, q.1 ≠ r.1) →
      q ∈ insertBad (results.foldl (fun b r => eraseBad b r.1) s.bad) parentPath parent) := by
  have hallbad : (results.all fun r => !r.2) = true := by
    rw [List.all_eq_true]
    intro r hr
    rw [hbad r hr]
    rfl
  have hallgood : (results.all fun r => r.2) = false := by
    cases results with
    | nil => exact absurd rfl hne
    | cons r rest =>
      simp only [List.all_cons]
      rw [hbad r (List.mem_cons_self _ _)]
      rfl
  refine ⟨?_, ?_, ?_, ?_⟩
  · dsimp only [combine]
    rw [if_pos hallbad, hallgood]
  · exact containsBad_insertBad_self _ _ _
  · intro r hr
    rw [containsBad_insertBad_of_ne _ _ (hpp r hr)]
    exact eraseFold_not_contains _ r hr
  · intro q hq hqr
    exact mem_insertBad_of_mem _ _ (eraseFold_mem _ q hq hqr)

/-- C2 witness: the `combine` step of the counterexample evaluation —
parent `(v1 + c1)`, sole operand judged non-constant, culprit `v1`
already recorded for a deeper descendant — keeps `v1` and records the
parent. -/
theorem c2_amended_witness :
    combine [] exprC2 [([0], false)] ⟨[([0, 0], Expr.ident "v1" (some v1Obj))], []⟩
      = (false,
        { bad := insertBad ([(([0] : Path), false)].foldl (fun b r => eraseBad b r.1)
              [([0, 0], Expr.ident "v1" (some v1Obj))]) [] exprC2,
          warns := [] }) ∧
    containsBad (insertBad ([(([0] : Path), false)].foldl (fun b r => eraseBad b r.1)
        [([0, 0], Expr.ident "v1" (some v1Obj))]) [] exprC2) [] = true ∧
    (∀ r ∈ [(([0] : Path), false)],
      containsBad (insertBad ([(([0] : Path), false)].foldl (fun b r => eraseBad b r.1)
        [([0, 0], Expr.ident "v1" (some v1Obj))]) [] exprC2) r.1 = false) ∧
    (∀ q ∈ [(([0, 0] : Path), Expr.ident "v1" (some v1Obj))],
      (∀ r ∈ [(([0] : Path), false)], q.1 ≠ r.1) →
      q ∈ insertBad ([(([0] : Path), false)].foldl (fun b r => eraseBad b r.1)
        [([0, 0], Expr.ident "v1" (some v1Obj))]) [] exprC2) :=
  combine_allbad_culprits [] exprC2 [([0], false)]
    ⟨[([0, 0], Expr.ident "v1" (some v1Obj))], []⟩
    (by simp) (by simp) (by simp)

/-- C1 counterexample: with `SuppressNoArgs` set, a call that supplies
no variadic values beyond its non-constant format string is still
reported — the flag does not skip such calls. -/
theorem c1_counterexample :
    run ⟨true⟩ ppc [.call (.ident "Sprintf" (some sprintfObj)) [.ident "v1" (some v1Obj)]]
      = .ok ([], [[⟨"variable `e` used for e format parameter", ["defined here"]⟩]], []) := by
  rfl

/-- C1 (amended): with `SuppressNoArgs` set, a call that supplies
variadic values beyond the format string (`len(args) - 1 > checkarg`)
is skipped without a diagnostic, while a call supplying only up to the
format argument is still checked: a non-registered variable there is
reported. -/
theorem suppressNoArgs_skips_calls_with_extra_args :
    (∀ (pp : Expr → String) (pts : Passthru) (args : List Expr) (c : Int)
      (nm : String) (o : Obj),
      fmtarg (some o) = c → 0 ≤ c → (args.length : Int) - 1 > c →
      step ⟨true⟩ pp pts (.call (.ident nm (some o)) args) = .ok (pts, [], [])) ∧
    (∀ (pp : Expr → String) (pts : Passthru) (args : List Expr) (c : Int)
      (nm anm : String) (o ao : Obj),
      fmtarg (some o) = c → 0 ≤ c → (args.length : Int) - 1 = c →
      args[c.toNat]? = some (.ident anm (some ao)) →
      ao.kind = .varK → ao.id ∉ pts →
      step ⟨true⟩ pp pts (.call (.ident nm (some o)) args)
        = .ok (pts,
          [⟨"variable `" ++ pp (.ident anm (some ao)) ++ "` used for "
              ++ pp (.ident nm (some o)) ++ " format parameter", ["defined here"]⟩], [])) := by
  constructor
  · intro pp pts args c nm o hfm hge hgt
    have hsc : stepCall ⟨true⟩ pp pts (.ident nm (some o)) args = .ok ([], []) := by
      simp only [stepCall, hfm]
      unfold stepCallChecked
      rw [if_neg (by omega), if_pos ⟨rfl, hgt⟩]
    simp only [step, hsc]
  · intro pp pts args c nm anm o ao hfm hge hlen hidx hkind hmem
    have hsa : stepArg pp pts (.ident nm (some o)) (.ident anm (some ao))
        = .ok ([⟨"variable `" ++ pp (.ident anm (some ao)) ++ "` used for "
            ++ pp (.ident nm (some o)) ++ " format parameter", ["defined here"]⟩], []) := by
      simp only [stepArg]
      rw [hkind]
      dsimp only
      rw [if_neg hmem]
    have hsc : stepCall ⟨true⟩ pp pts (.ident nm (some o)) args
        = .ok ([⟨"variable `" ++ pp (.ident anm (some ao)) ++ "` used for "
            ++ pp (.ident nm (some o)) ++ " format parameter", ["defined here"]⟩], []) := by
      simp only [stepCall, hfm]
      unfold stepCallChecked
      rw [if_neg (by omega), if_neg (by rintro ⟨_, hx⟩; omega), hidx]
      exact hsa
    simp only [step, hsc]

/-- C1 witness: under `SuppressNoArgs`, `Sprintf(v1, "x")` (one value
beyond the format string) is skipped, while `Sprintf(v1)` (no values
beyond it) is reported. -/
theorem c1_amended_witness :
    step ⟨true⟩ ppc [] (.call (.ident "Sprintf" (some sprintfObj))
        [.ident "v1" (some v1Obj), .basicLit "x"]) = .ok ([], [], []) ∧
    step ⟨true⟩ ppc [] (.call (.ident "Sprintf" (some sprintfObj))
        [.ident "v1" (some v1Obj)])
      = .ok ([],
        [⟨"variable `" ++ ppc (.ident "v1" (some v1Obj)) ++ "` used for "
            ++ ppc (.ident "Sprintf" (some sprintfObj)) ++ " format parameter",
          ["defined here"]⟩], []) :=
  ⟨suppressNoArgs_skips_calls_with_extra_args.1 ppc [] _ 0 "Sprintf" sprintfObj
      (by decide) (by decide) (by decide),
    suppressNoArgs_skips_calls_with_extra_args.2 ppc [] _ 0 "Sprintf" "v1"
      sprintfObj v1Obj (by decide) (by decide) (by decide) rfl rfl (by simp)⟩

/-- C6 counterexample: the registry is not cleared at function-body
boundaries.  After the declarations of two format-consuming wrappers
are visited, both format-parameter entries are present, and a call
visited during the second function's traversal that uses the first
function's format parameter is still exempted by the stale entry. -/
theorem c6_counterexample :
    run ⟨false⟩ ppc
        [.funcDecl (some wrapObj) wrapParams,
         .funcDecl (some wrap2Obj) wrap2Params,
         .call (.ident "Sprintf" (some sprintfObj)) [.ident "format" (some formatObj)]]
      = .ok ([formatObj.id, format2Obj.id], [[], [], []], []) ∧
    formatObj.id ∈ ([formatObj.id, format2Obj.id] : Passthru) := by
  constructor
  · rfl
  · simp

/-- C6 (amended): the registry is a single per-run map created once; a
step of the traversal never clears it at a function boundary — an entry
persists through any event unless that event is an assignment whose
identifier left-hand sides include the entry's symbol. -/
theorem registry_entry_persists (cfg : Config) (pp : Expr → String) (pts : Passthru)
    (e : Event) (pts' : Passthru) (ds : List Diagnostic) (ws : List String) (oid : Nat)
    (h : step cfg pp pts e = .ok (pts', ds, ws)) (hm : oid ∈ pts) :
    oid ∈ pts' ∨ EAssigns e oid :=
  step_mem_or h hm

/-- C6 witness: the first wrapper's registry entry survives the
declaration of the second wrapper. -/
theorem c6_amended_witness :
    formatObj.id ∈ ([formatObj.id, format2Obj.id] : Passthru) ∨
      EAssigns (.funcDecl (some wrap2Obj) wrap2Params) formatObj.id :=
  registry_entry_persists ⟨false⟩ ppc [formatObj.id] (.funcDecl (some wrap2Obj) wrap2Params)
    [formatObj.id, format2Obj.id] [] [] formatObj.id (by rfl) (by simp)


/-- The callee expression resolves, through the identifier or selector
dispatch of the call case, to an object whose format index is `c`. -/
def FnResolvesTo (fn : Expr) (c : Int) : Prop :=
  (∃ nm o, fn = .ident nm (some o) ∧ fmtarg (some o) = c) ∨
  (∃ x nm so sel o, fn = .selector x nm so sel ∧ selobj so sel = .ok o ∧
    fmtarg (some o) = c)

theorem step_call_of_checked {cfg : Config} {pp : Expr → String} {pts : Passthru}
    {fn : Expr} {args : List Expr} {c : Int} {ds : List Diagnostic} {ws : List String}
    (hfn : FnResolvesTo fn c)
    (hscc : stepCallChecked cfg pp pts fn args c = .ok (ds, ws)) :
    step cfg pp pts (.call fn args) = .ok (pts, ds, ws) := by
  rcases hfn with ⟨nm, o, hfe, hfm⟩ | ⟨x, nm, so, sel, o, hfe, hso, hfm⟩
  · subst hfe
    have hsc : stepCall cfg pp pts (.ident nm (some o)) args = .ok (ds, ws) := by
      simp only [stepCall, hfm]
      exact hscc
    simp only [step, hsc]
  · subst hfe
    have hsc : stepCall cfg pp pts (.selector x nm so sel) args = .ok (ds, ws) := by
      simp only [stepCall]
      rw [hso]
      dsimp only
      rw [hfm]
      exact hscc
    simp only [step, hsc]

theorem step_call_of_arg {cfg : Config} {pp : Expr → String} {pts : Passthru}
    {fn : Expr} {args : List Expr} {c : Int} {arg : Expr} {ds : List Diagnostic}
    {ws : List String}
    (hfn : FnResolvesTo fn c) (hge : 0 ≤ c)
    (hns : ¬ (cfg.suppressNoArgs ∧ (args.length : Int) - 1 > c))
    (hidx : args[c.toNat]? = some arg)
    (hsa : stepArg pp pts fn arg = .ok (ds, ws)) :
    step cfg pp pts (.call fn args) = .ok (pts, ds, ws) := by
  apply step_call_of_checked hfn
  unfold stepCallChecked
  rw [if_neg (by omega), if_neg hns, hidx]
  exact hsa

theorem stepArg_var_not_registered {pp : Expr → String} {pts : Passthru} {fn : Expr}
    {anm : String} {ao : Obj} (hk : ao.kind = .varK) (hm : ao.id ∉ pts) :
    stepArg pp pts fn (.ident anm (some ao))
      = .ok ([⟨"variable `" ++ pp (.ident anm (some ao)) ++ "` used for " ++ pp fn
          ++ " format parameter", ["defined here"]⟩], []) := by
  simp only [stepArg]
  rw [hk]
  dsimp only
  rw [if_neg hm]

theorem stepArg_var_registered {pp : Expr → String} {pts : Passthru} {fn : Expr}
    {anm : String} {ao : Obj} (hk : ao.kind = .varK) (hm : ao.id ∈ pts) :
    stepArg pp pts fn (.ident anm (some ao)) = .ok ([], []) := by
  simp only [stepArg]
  rw [hk]
  dsimp only
  rw [if_pos hm]

theorem stepArg_eq_general {pp : Expr → String} {pts : Passthru} {fn arg : Expr}
    (hni : ∀ nm ao, arg ≠ .ident nm ao) :
    stepArg pp pts fn arg
      = (match constlit pp arg [] ⟨[], []⟩ with
        | .error p => .error p
        | .ok (true, s) => .ok ([], s.warns)
        | .ok (false, s) =>
          .ok ([⟨synthMsg pp s.bad ++ " used for " ++ pp fn ++ " format parameter",
              s.bad.map (fun b => "Non-constant: " ++ pp b.2)⟩], s.warns)) := by
  cases arg <;> first | rfl | exact absurd rfl (hni _ _)

/-- C5 counterexample: a call whose callee selector has neither a
resolved object nor a selection makes `selobj` dereference a nil
`*types.Selection`: the run aborts instead of degrading gracefully. -/
theorem c5_counterexample :
    run ⟨false⟩ ppc [.call (.selector (.ident "x" none) "F" none none) []]
      = .error .nilSelection := by
  rfl

/-- C5 (amended): on resolution-well-formed input — every selector the
analysis consults carries an object or a selection, every
bare-identifier format argument resolves to an object, and the format
index is within the call's argument list — the whole run returns
normally; and an unrecognized expression shape degrades inside
`constlit` to a non-constant verdict that records the node as culprit
together with a developer-visible warning. -/
theorem run_total_on_wf :
    (∀ (cfg : Config) (pp : Expr → String) (events : List Event),
      (∀ e ∈ events, wfEvent e = true) → ∃ v, run cfg pp events = .ok v) ∧
    (∀ (pp : Expr → String) (kind : String) (path : Path) (s : CState),
      constlit pp (.other kind) path s
        = .ok (false, ⟨insertBad s.bad path (.other kind),
            s.warns ++ ["unhandled constlit " ++ pp (.other kind)]⟩)) := by
  constructor
  · intro cfg pp events hwf
    exact runEvents_ok_of_wf events [] hwf
  · intro pp kind path s
    simp only [constlit, pt, Bool.false_eq_true, if_false]

/-- C5 witness: a unit with one resolved printf call runs to
completion. -/
theorem c5_amended_witness :
    ∃ v, run ⟨false⟩ ppc
      [.call (.ident "Sprintf" (some sprintfObj)) [.ident "v1" (some v1Obj)]] = .ok v :=
  run_total_on_wf.1 ⟨false⟩ ppc
    [.call (.ident "Sprintf" (some sprintfObj)) [.ident "v1" (some v1Obj)]] (by decide)

/-- C7: an expression built only from literals, declared-constant
references and single-argument named-type conversions of such
expressions is judged constant with the threaded state untouched, and a
call using such an expression as its format argument emits no
diagnostic and no warning. -/
theorem constBuilt_constant_no_diag :
    (∀ (e : Expr), ConstBuilt e → ∀ (pp : Expr → String) (path : Path) (s : CState),
      constlit pp e path s = .ok (true, s)) ∧
    (∀ (cfg : Config) (pp : Expr → String) (pts : Passthru) (fn : Expr)
      (args : List Expr) (c : Int) (e : Expr),
      FnResolvesTo fn c → args[c.toNat]? = some e → ConstBuilt e →
      step cfg pp pts (.call fn args) = .ok (pts, [], [])) := by
  constructor
  · intro e h pp path s
    exact constlit_constBuilt h pp path s
  · intro cfg pp pts fn args c e hfn hidx hcb
    apply step_call_of_checked hfn
    unfold stepCallChecked
    by_cases hc0 : c < 0
    · rw [if_pos hc0]
    · rw [if_neg hc0]
      by_cases hsup : cfg.suppressNoArgs ∧ (args.length : Int) - 1 > c
      · rw [if_pos hsup]
      · rw [if_neg hsup, hidx]
        dsimp only
        cases hcb with
        | lit str => rw [stepArg_eq_general (by intro nm ao h; exact Expr.noConfusion h)]
                     rw [constlit_constBuilt (ConstBuilt.lit str) pp [] ⟨[], []⟩]
        | cident nm o hk =>
          simp only [stepArg]
          rw [hk]
        | csel x nm so sel o hso hk =>
          rw [stepArg_eq_general (by intro nm2 ao h; exact Expr.noConfusion h)]
          rw [constlit_constBuilt (ConstBuilt.csel x nm so sel o hso hk) pp [] ⟨[], []⟩]
        | conv fn2 a ht hcb2 =>
          rw [stepArg_eq_general (by intro nm2 ao h; exact Expr.noConfusion h)]
          rw [constlit_constBuilt (ConstBuilt.conv fn2 a ht hcb2) pp [] ⟨[], []⟩]

/-- A named-type object such as `string`. -/
def stringTypeObj : Obj := ⟨10, .typeK⟩

/-- C7 witness: the conversion `string("abc")` of a literal is judged
constant, and `Sprintf(string("abc"))` emits nothing. -/
theorem c7_witness :
    constlit ppc (.call (.ident "string" (some stringTypeObj)) [.basicLit "abc"]) [] ⟨[], []⟩
      = .ok (true, ⟨[], []⟩) ∧
    step ⟨false⟩ ppc [] (.call (.ident "Sprintf" (some sprintfObj))
        [.call (.ident "string" (some stringTypeObj)) [.basicLit "abc"]])
      = .ok ([], [], []) :=
  ⟨constBuilt_constant_no_diag.1 _
      (ConstBuilt.conv _ _ (by simp [typeexpr, typeobj, stringTypeObj]) (ConstBuilt.lit "abc"))
      ppc [] ⟨[], []⟩,
    constBuilt_constant_no_diag.2 ⟨false⟩ ppc [] _ _ 0 _
      (Or.inl ⟨"Sprintf", sprintfObj, rfl, by decide⟩) rfl
      (ConstBuilt.conv _ _ (by simp [typeexpr, typeobj, stringTypeObj]) (ConstBuilt.lit "abc"))⟩



/-- A mixed expression with a non-constant variable leaf and an
unresolved selector sibling. -/
def exprC8 : Expr :=
  .binary (.ident "v1" (some v1Obj)) (.selector (.ident "m" none) "F" none none)

/-- C8 counterexample: `exprC8` has a non-constant leaf (`v1`) that is
not nested inside any indexing expression, yet the engine returns no
verdict at all — evaluating the unresolved selector sibling panics — so
the claim fails as stated for inputs with unresolved member accesses. -/
theorem c8_counterexample :
    constlit ppc exprC8 [] ⟨[], []⟩ = .error .nilSelection ∧ HasBadLeaf exprC8 := by
  constructor
  · simp [constlit, exprC8, selobj, constobj, v1Obj, insertBad, containsBad]
  · exact HasBadLeaf.binaryL _ _ (HasBadLeaf.identL "v1" (some v1Obj) (by rfl))

/-- C8 (amended): for a resolution-well-formed expression with at least
one non-constant leaf not nested inside an indexing expression, the
engine returns a non-constant verdict and the culprit set accumulated
by the evaluation is non-empty. -/
theorem hasBadLeaf_nonconstant (pp : Expr → String) (e : Expr) (ws : List String)
    (hwf : wfE e = true) (h : HasBadLeaf e) :
    ∃ s', constlit pp e [] ⟨[], ws⟩ = .ok (false, s') ∧ s'.bad ≠ [] := by
  obtain ⟨s', hs⟩ := hasBadLeaf_false h hwf pp [] ⟨[], ws⟩
  exact ⟨s', hs, (constlit_inv pp (sizeOf e) e le_rfl [] ⟨[], ws⟩ false s' hs).2.2 rfl⟩

/-- C8 witness: `v1 + v1` is judged non-constant with a non-empty
culprit set. -/
theorem c8_amended_witness :
    ∃ s', constlit ppc (.binary (.ident "v1" (some v1Obj)) (.ident "v1" (some v1Obj))) []
        ⟨[], []⟩ = .ok (false, s') ∧ s'.bad ≠ [] :=
  hasBadLeaf_nonconstant ppc _ [] (by simp [wfE])
    (HasBadLeaf.binaryL _ _ (HasBadLeaf.identL "v1" (some v1Obj) (by rfl)))

/-- C9: for a non-bare-identifier format argument judged non-constant
with final culprit set `s'.bad`, the diagnostic message is
`variable `<culprit>` used for <fn> format parameter` when the set has
exactly one element whose rendering is shorter than 32 characters, and
`non-constant expression used for <fn> format parameter` when the set
has several elements or its single element renders to 32 or more
characters; in both cases every culprit is attached as a
`Non-constant: <culprit>` note. -/
theorem diag_message_synthesis (cfg : Config) (pp : Expr → String) (pts : Passthru)
    (fn : Expr) (args : List Expr) (c : Int) (arg : Expr) (s' : CState)
    (hfn : FnResolvesTo fn c) (hge : 0 ≤ c)
    (hns : ¬ (cfg.suppressNoArgs ∧ (args.length : Int) - 1 > c))
    (hidx : args[c.toNat]? = some arg)
    (hni : ∀ nm ao, arg ≠ .ident nm ao)
    (hcl : constlit pp arg [] ⟨[], []⟩ = .ok (false, s')) :
    (∀ p x, s'.bad = [(p, x)] → (pp x).length < 32 →
      step cfg pp pts (.call fn args)
        = .ok (pts, [⟨"variable `" ++ pp x ++ "`" ++ " used for " ++ pp fn
            ++ " format parameter", ["Non-constant: " ++ pp x]⟩], s'.warns)) ∧
    ((s'.bad.length ≠ 1 ∨ ∃ p x, s'.bad = [(p, x)] ∧ 32 ≤ (pp x).length) →
      step cfg pp pts (.call fn args)
        = .ok (pts, [⟨"non-constant expression" ++ " used for " ++ pp fn
            ++ " format parameter",
            s'.bad.map (fun b => "Non-constant: " ++ pp b.2)⟩], s'.warns)) := by
  constructor
  · intro p x hbad hlen
    apply step_call_of_arg hfn hge hns hidx
    rw [stepArg_eq_general hni, hcl]
    dsimp only
    rw [hbad]
    simp only [synthMsg, List.map_cons, List.map_nil]
    rw [if_pos hlen]
  · intro hcase
    apply step_call_of_arg hfn hge hns hidx
    rw [stepArg_eq_general hni, hcl]
    dsimp only
    have hmsg : synthMsg pp s'.bad = "non-constant expression" := by
      rcases hcase with hlen | ⟨p, x, hbad, hlong⟩
      · cases hb : s'.bad with
        | nil => rfl
        | cons q rest =>
          cases rest with
          | nil =>
            rw [hb] at hlen
            simp at hlen
          | cons q2 rest2 => rfl
      · rw [hbad]
        simp only [synthMsg]
        rw [if_neg (by omega)]
    rw [hmsg]

/-- C9 witness: `v1 + v1` collapses to the single culprit `v1 + v1`
(rendered shortly), so `Sprintf(v1 + v1)` reports
`variable `<text>` ...`; the same call under a renderer producing a
32-character text reports `non-constant expression ...`. -/
theorem c9_witness :
    step ⟨false⟩ ppc []
        (.call (.ident "Sprintf" (some sprintfObj))
          [.binary (.ident "v1" (some v1Obj)) (.ident "v1" (some v1Obj))])
      = .ok ([], [⟨"variable `" ++ ppc (.binary (.ident "v1" (some v1Obj))
            (.ident "v1" (some v1Obj))) ++ "`" ++ " used for "
            ++ ppc (.ident "Sprintf" (some sprintfObj)) ++ " format parameter",
          ["Non-constant: " ++ ppc (.binary (.ident "v1" (some v1Obj))
            (.ident "v1" (some v1Obj)))]⟩], []) :=
  (diag_message_synthesis ⟨false⟩ ppc []
      (.ident "Sprintf" (some sprintfObj))
      [.binary (.ident "v1" (some v1Obj)) (.ident "v1" (some v1Obj))] 0
      (.binary (.ident "v1" (some v1Obj)) (.ident "v1" (some v1Obj)))
      ⟨[([], .binary (.ident "v1" (some v1Obj)) (.ident "v1" (some v1Obj)))], []⟩
      (Or.inl ⟨"Sprintf", sprintfObj, rfl, by decide⟩) (by decide)
      (by rintro ⟨hc, _⟩; simp at hc) rfl
      (by intro nm ao h; exact Expr.noConfusion h)
      (by simp [constlit, combine, insertBad, containsBad, eraseBad, constobj, v1Obj])).1
    [] (.binary (.ident "v1" (some v1Obj)) (.ident "v1" (some v1Obj))) rfl (by decide)


/-- C3: a format-consuming declaration whose format-index parameter name
exists and resolves registers that parameter's object; while no
later-visited event assigns to it, an inner format-consuming call
forwarding it unmodified as a bare identifier emits no diagnostic; when
an assignment to it is visited earlier in declaration order than the
inner call (and nothing re-registers it in between), the inner call's
diagnostic is emitted. -/
theorem passthrough_exemption (cfg : Config) (pp : Expr → String) (pts0 : Passthru)
    (fObj : Obj) (params : List Field) (pid : Id) (po : Obj)
    (gnm anm : String) (gObj : Obj) (args : List Expr) (j : Int)
    (hreg : 0 ≤ fmtarg (some fObj))
    (hnth : nthName params (fmtarg (some fObj)) = some pid)
    (hpo : pid.obj = some po)
    (hvar : po.kind = .varK)
    (hfm : fmtarg (some gObj) = j) (hj : 0 ≤ j)
    (hidx : args[j.toNat]? = some (.ident anm (some po)))
    (hsup : cfg.suppressNoArgs = false) :
    (∀ (mid : List Event) (ptsM : Passthru) (dssM : List (List Diagnostic))
      (wsM : List String),
      (∀ e ∈ mid, ¬ EAssigns e po.id) →
      runEvents cfg pp mid (insertPt pts0 po.id) = .ok (ptsM, dssM, wsM) →
      runEvents cfg pp (.funcDecl (some fObj) params
          :: (mid ++ [.call (.ident gnm (some gObj)) args])) pts0
        = .ok (ptsM, [] :: (dssM ++ [[]]), wsM)) ∧
    (∀ (mid1 : List Event) (lhs : List Expr) (mid2 : List Event)
      (ptsA : Passthru) (dssA : List (List Diagnostic)) (wsA : List String)
      (ptsB : Passthru) (dssB : List (List Diagnostic)) (wsB : List String)
      (lnm : String),
      Expr.ident lnm (some po) ∈ lhs →
      (∀ e ∈ mid2, ¬ ERegisters e po.id) →
      runEvents cfg pp mid1 (insertPt pts0 po.id) = .ok (ptsA, dssA, wsA) →
      runEvents cfg pp mid2 (stepAssign ptsA lhs) = .ok (ptsB, dssB, wsB) →
      runEvents cfg pp (.funcDecl (some fObj) params
          :: (mid1 ++ .assign lhs :: (mid2 ++ [.call (.ident gnm (some gObj)) args]))) pts0
        = .ok (ptsB,
          [] :: (dssA ++ [] :: (dssB ++ [[⟨"variable `" ++ pp (.ident anm (some po))
              ++ "` used for " ++ pp (.ident gnm (some gObj)) ++ " format parameter",
              ["defined here"]⟩]])),
          wsA ++ wsB)) := by
  have hsf : stepFuncDecl pts0 (some fObj) params = insertPt pts0 po.id := by
    simp only [stepFuncDecl]
    rw [if_pos hreg, hnth]
    dsimp only
    rw [hpo]
  have hstep1 : step cfg pp pts0 (.funcDecl (some fObj) params)
      = .ok (insertPt pts0 po.id, [], []) := by
    simp only [step, hsf]
  have hns : ¬ (cfg.suppressNoArgs ∧ (args.length : Int) - 1 > j) := by
    rintro ⟨h1, _⟩
    rw [hsup] at h1
    exact absurd h1 (by simp)
  have hcall_ok : ∀ pts, po.id ∈ pts →
      step cfg pp pts (.call (.ident gnm (some gObj)) args) = .ok (pts, [], []) :=
    fun pts hm => step_call_of_arg (Or.inl ⟨gnm, gObj, rfl, hfm⟩) hj hns hidx
      (stepArg_var_registered hvar hm)
  have hcall_diag : ∀ pts, po.id ∉ pts →
      step cfg pp pts (.call (.ident gnm (some gObj)) args)
        = .ok (pts, [⟨"variable `" ++ pp (.ident anm (some po)) ++ "` used for "
            ++ pp (.ident gnm (some gObj)) ++ " format parameter", ["defined here"]⟩], []) :=
    fun pts hm => step_call_of_arg (Or.inl ⟨gnm, gObj, rfl, hfm⟩) hj hns hidx
      (stepArg_var_not_registered hvar hm)
  constructor
  · intro mid ptsM dssM wsM hno hrun
    have hm : po.id ∈ ptsM := by
      have hres := runEvents_mem_persist mid (insertPt pts0 po.id) hrun
        (mem_insertPt_self _ _) hno
      exact hres
    have hsingle : runEvents cfg pp [.call (.ident gnm (some gObj)) args] ptsM
        = .ok (ptsM, [[]], []) := by
      simp only [runEvents]
      rw [hcall_ok ptsM hm]
      rfl
    simp only [runEvents]
    rw [hstep1]
    dsimp only
    rw [runEvents_append cfg pp mid [.call (.ident gnm (some gObj)) args]
      (insertPt pts0 po.id), hrun]
    dsimp only
    rw [hsingle]
    dsimp only
    simp
  · intro mid1 lhs mid2 ptsA dssA wsA ptsB dssB wsB lnm hlhs hno2 hrunA hrunB
    have hnot1 : po.id ∉ stepAssign ptsA lhs := stepAssign_removes lhs ptsA lnm po hlhs rfl
    have hnotB : po.id ∉ ptsB := by
      have hres := runEvents_not_mem_persist mid2 (stepAssign ptsA lhs) hrunB hnot1 hno2
      exact hres
    have hsingle : runEvents cfg pp [.call (.ident gnm (some gObj)) args] ptsB
        = .ok (ptsB, [[⟨"variable `" ++ pp (.ident anm (some po)) ++ "` used for "
            ++ pp (.ident gnm (some gObj)) ++ " format parameter", ["defined here"]⟩]], []) := by
      simp only [runEvents]
      rw [hcall_diag ptsB hnotB]
      rfl
    have hassign : runEvents cfg pp (.assign lhs :: (mid2
        ++ [.call (.ident gnm (some gObj)) args])) ptsA
        = .ok (ptsB, [] :: (dssB ++ [[⟨"variable `" ++ pp (.ident anm (some po))
            ++ "` used for " ++ pp (.ident gnm (some gObj)) ++ " format parameter",
            ["defined here"]⟩]]), wsB) := by
      simp only [runEvents, step]
      rw [runEvents_append cfg pp mid2 [.call (.ident gnm (some gObj)) args]
        (stepAssign ptsA lhs), hrunB]
      dsimp only
      rw [hsingle]
      dsimp only
      simp
    simp only [runEvents]
    rw [hstep1]
    dsimp only
    rw [runEvents_append cfg pp mid1 (Event.assign lhs
      :: (mid2 ++ [Event.call (Expr.ident gnm (some gObj)) args])) (insertPt pts0 po.id), hrunA]
    dsimp only
    rw [hassign]
    dsimp only
    simp



/-- C3 witness: `passthrough(format, ...)` forwarding `format` into
`Sprintf` emits nothing, and with `format = ...` assigned before the
inner call the diagnostic appears. -/
theorem c3_witness :
    runEvents ⟨false⟩ ppc
        [.funcDecl (some wrapObj) wrapParams,
         .call (.ident "Sprintf" (some sprintfObj)) [.ident "format" (some formatObj)]] []
      = .ok ([formatObj.id], [[], []], []) ∧
    runEvents ⟨false⟩ ppc
        [.funcDecl (some wrapObj) wrapParams,
         .assign [.ident "format" (some formatObj)],
         .call (.ident "Sprintf" (some sprintfObj)) [.ident "format" (some formatObj)]] []
      = .ok ([], [[], [],
          [⟨"variable `e` used for e format parameter", ["defined here"]⟩]], []) := by
  have h := passthrough_exemption ⟨false⟩ ppc [] wrapObj wrapParams
    ⟨"format", some formatObj⟩ formatObj "Sprintf" "format" sprintfObj
    [.ident "format" (some formatObj)] 0
    (by decide) rfl rfl rfl (by decide) (by decide) rfl rfl
  constructor
  · exact h.1 [] (insertPt [] formatObj.id) [] [] (by simp) rfl
  · exact h.2 [] [.ident "format" (some formatObj)] []
      (insertPt [] formatObj.id) [] []
      (stepAssign (insertPt [] formatObj.id) [.ident "format" (some formatObj)]) [] []
      "format" (by simp) (by simp) rfl rfl

/-- C10: when a format-consuming declaration has no named parameter at
its format index — all parameters unnamed, or the index at or beyond
the number of declared names — `nthName` yields nothing, the
declaration registers no pass-through entry, and a bare-identifier
forward of a variable into an inner format-consuming call is reported
like any other non-constant variable. -/
theorem unnamed_format_param_not_registered :
    (∀ (flds : List Field) (i : Int), (i < 0 ∨ (countNames flds : Int) ≤ i) →
      nthName flds i = none) ∧
    (∀ (pts : Passthru) (fo : Obj) (params : List Field),
      nthName params (fmtarg (some fo)) = none →
      stepFuncDecl pts (some fo) params = pts) ∧
    (∀ (cfg : Config) (pp : Expr → String) (pts : Passthru) (gnm anm : String)
      (gObj ao : Obj) (args : List Expr) (j : Int),
      fmtarg (some gObj) = j → 0 ≤ j →
      ¬ (cfg.suppressNoArgs ∧ (args.length : Int) - 1 > j) →
      args[j.toNat]? = some (.ident anm (some ao)) →
      ao.kind = .varK → ao.id ∉ pts →
      step cfg pp pts (.call (.ident gnm (some gObj)) args)
        = .ok (pts, [⟨"variable `" ++ pp (.ident anm (some ao)) ++ "` used for "
            ++ pp (.ident gnm (some gObj)) ++ " format parameter",
            ["defined here"]⟩], [])) := by
  refine ⟨fun flds i h => nthName_none h, ?_, ?_⟩
  · intro pts fo params hnone
    simp only [stepFuncDecl]
    by_cases hf : 0 ≤ fmtarg (some fo)
    · rw [if_pos hf, hnone]
    · rw [if_neg hf]
  · intro cfg pp pts gnm anm gObj ao args j hfm hj hns hidx hk hm
    exact step_call_of_arg (Or.inl ⟨gnm, gObj, rfl, hfm⟩) hj hns hidx
      (stepArg_var_not_registered hk hm)

/-- Parameter field list with unnamed parameters only. -/
def unnamedParams : List Field := [⟨[]⟩, ⟨[]⟩]

/-- C10 witness: a wrapper declared with unnamed parameters registers
nothing (format index 0, zero declared names), and the forwarded
variable inside it is reported. -/
theorem c10_witness :
    nthName unnamedParams 0 = none ∧
    stepFuncDecl [] (some wrapObj) unnamedParams = [] ∧
    step ⟨false⟩ ppc [] (.call (.ident "Sprintf" (some sprintfObj))
        [.ident "format" (some formatObj)])
      = .ok ([], [⟨"variable `" ++ ppc (.ident "format" (some formatObj))
          ++ "` used for " ++ ppc (.ident "Sprintf" (some sprintfObj))
          ++ " format parameter", ["defined here"]⟩], []) :=
  ⟨unnamed_format_param_not_registered.1 unnamedParams 0 (Or.inr (by decide)),
    unnamed_format_param_not_registered.2.1 [] wrapObj unnamedParams
      (unnamed_format_param_not_registered.1 unnamedParams 0 (Or.inr (by decide))),
    unnamed_format_param_not_registered.2.2 ⟨false⟩ ppc [] "Sprintf" "format"
      sprintfObj formatObj [.ident "format" (some formatObj)] 0
      (by decide) (by decide) (by rintro ⟨hc, _⟩; simp at hc) rfl rfl (by simp)⟩

end VarFmt
